import Mathlib

/-!
Verification of the sudoku solver (src/main.rs).

The board is `Vec<Vec<Option<u8>>>` in the source; we embed it as a nested
list of optional naturals.  Each function of `impl Sudoku` is translated
one-for-one below; loops `for i in 0..n` become iteration over `List.range n`,
and the recursive `solve` is given an explicit fuel argument (the source
recursion is bounded by the number of open cells, proved below).
-/

namespace Sudoku

/-- `const ROWS: usize = 9`. -/
abbrev ROWS : Nat := 9
/-- `const COLS: usize = 9`. -/
abbrev COLS : Nat := 9
/-- `const CAGE_ROWS: usize = 3`. -/
abbrev CAGE_ROWS : Nat := 3
/-- `const CAGE_COLS: usize = 3`. -/
abbrev CAGE_COLS : Nat := 3

/-- The board representation: `board: Vec<Vec<Option<u8>>>`. -/
abbrev Board := List (List (Option Nat))

/-- Read `self.board[r][c]` (in-range reads in the source; out of range we default to `none`). -/
def cell (b : Board) (r c : Nat) : Option Nat :=
  (b.getD r []).getD c none

/-- Write `self.board[r][c] = v`. -/
def setCell (b : Board) (r c : Nat) (v : Option Nat) : Board :=
  b.set r ((b.getD r []).set c v)

/-- The board shape invariant of the Rust type: 9 rows of 9 cells. -/
def Shaped (b : Board) : Prop :=
  b.length = 9 ∧ ∀ r < 9, (b.getD r []).length = 9

instance : DecidablePred Shaped := fun b => by
  unfold Shaped; infer_instance

/-- The all-empty grid built by the first loop of `Sudoku::new`. -/
def emptyBoard : Board := List.replicate ROWS (List.replicate COLS none)

/-- The validation/insertion loop of `Sudoku::new` (`for (row, col, val) in initial`). -/
def newGo : List (Nat × Nat × Nat) → Board → Except String Board
  | [], b => .ok b
  | (row, col, val) :: rest, b =>
      if ROWS ≤ row ∨ COLS ≤ col ∨ val = 0 ∨ 9 < val then
        .error "value out of range"
      else if cell b row col ≠ none then
        .error "value already exists"
      else
        newGo rest (setCell b row col (some val))

/-- `Sudoku::new`: build an empty grid, then apply the supplied triples. -/
def newBoard (initial : List (Nat × Nat × Nat)) : Except String Board :=
  newGo initial emptyBoard

/-- The scan loop shared by `verify_row_`, `verify_col_` and `verify_cage_`:
walk the cells with a `seen: [bool; 10]` array, returning false on an empty
cell or a repeated value.  `seen[val]` is indexed before the (consequently
dead) `val > 9` test, so a cell value of 10 or more panics with an index
out of bounds; the scan returns `none` on that path and `some result`
otherwise. -/
def verifyScan : List (Option Nat) → List Bool → Option Bool
  | [], _ => some true
  | none :: _, _ => some false
  | some v :: rest, seen =>
      match seen[v]? with
      | none => none
      | some sv =>
          if sv ∨ 9 < v then some false
          else verifyScan rest (seen.set v true)

/-- The cells of row `row` in the order scanned by `verify_row_`. -/
def rowCells (b : Board) (row : Nat) : List (Option Nat) :=
  (List.range COLS).map fun col => cell b row col

/-- The cells of column `col` in the order scanned by `verify_col_`. -/
def colCells (b : Board) (col : Nat) : List (Option Nat) :=
  (List.range ROWS).map fun row => cell b row col

/-- The cells of cage `(cageRow, cageCol)` in the order scanned by
`verify_cage_` (`i` outer, `j` inner, i.e. index `t = i*3 + j`). -/
def cageCells (b : Board) (cageRow cageCol : Nat) : List (Option Nat) :=
  (List.range 9).map fun t =>
    cell b (cageRow * CAGE_ROWS + t / 3) (cageCol * CAGE_COLS + t % 3)

/-- `Sudoku::verify_row_` (`none` = panic). -/
def verify_row (b : Board) (row : Nat) : Option Bool :=
  verifyScan (rowCells b row) (List.replicate 10 false)

/-- `Sudoku::verify_col_` (`none` = panic). -/
def verify_col (b : Board) (col : Nat) : Option Bool :=
  verifyScan (colCells b col) (List.replicate 10 false)

/-- `Sudoku::verify_cage_` (`none` = panic). -/
def verify_cage (b : Board) (cageRow cageCol : Nat) : Option Bool :=
  verifyScan (cageCells b cageRow cageCol) (List.replicate 10 false)

/-- The row loop of `Sudoku::verify`: return false at the first failing
row, propagate a panic, continue otherwise. -/
def verifyRows (b : Board) : List Nat → Option Bool
  | [] => some true
  | i :: rest =>
      match verify_row b i with
      | none => none
      | some false => some false
      | some true => verifyRows b rest

/-- The column loop of `Sudoku::verify`. -/
def verifyCols (b : Board) : List Nat → Option Bool
  | [] => some true
  | j :: rest =>
      match verify_col b j with
      | none => none
      | some false => some false
      | some true => verifyCols b rest

/-- The cage loop of `Sudoku::verify` (`ci` outer, `cj` inner). -/
def verifyCages (b : Board) : List (Nat × Nat) → Option Bool
  | [] => some true
  | (ci, cj) :: rest =>
      match verify_cage b ci cj with
      | none => none
      | some false => some false
      | some true => verifyCages b rest

/-- The cage index pairs in the order of the two nested loops. -/
def cagePairs : List (Nat × Nat) :=
  (List.range CAGE_ROWS).flatMap fun ci =>
    (List.range CAGE_COLS).map fun cj => (ci, cj)

/-- `Sudoku::verify`: all rows, then all columns, then all cages, with the
source's early `return false` and panic propagation (`none` = panic). -/
def verify (b : Board) : Option Bool :=
  match verifyRows b (List.range ROWS) with
  | none => none
  | some false => some false
  | some true =>
      match verifyCols b (List.range COLS) with
      | none => none
      | some false => some false
      | some true => verifyCages b cagePairs

/-- `Sudoku::find_open_cell_`: first cell equal to `None`, scanning rows
outer and columns inner. -/
def findOpenCell (b : Board) : Option (Nat × Nat) :=
  (List.range ROWS).findSome? fun i =>
    (List.range COLS).findSome? fun j =>
      if cell b i j = none then some (i, j) else none

/-- `Sudoku::valid_row_insert_`: no cell of the row holds `val`. -/
def valid_row_insert (b : Board) (row val : Nat) : Bool :=
  (List.range COLS).all fun col =>
    match cell b row col with
    | some v => v != val
    | none => true

/-- `Sudoku::valid_col_insert_`: no cell of the column holds `val`. -/
def valid_col_insert (b : Board) (col val : Nat) : Bool :=
  (List.range ROWS).all fun row =>
    match cell b row col with
    | some v => v != val
    | none => true

/-- `Sudoku::valid_cage_insert_`: no cell of the cage holds `val`
(`i` outer, `j` inner, index `t = i*3 + j`). -/
def valid_cage_insert (b : Board) (cageRow cageCol val : Nat) : Bool :=
  (List.range 9).all fun t =>
    match cell b (cageRow * CAGE_ROWS + t / 3) (cageCol * CAGE_COLS + t % 3) with
    | some v => v != val
    | none => true

/-- `Sudoku::valid_insert`. -/
def valid_insert (b : Board) (row col val : Nat) : Bool :=
  decide (cell b row col = none) &&
  valid_row_insert b row val &&
  valid_col_insert b col val &&
  valid_cage_insert b (row / CAGE_ROWS) (col / CAGE_COLS) val

/-- Number of open cells (used only to size the fuel of `solve`). -/
def numOpen (b : Board) : Nat :=
  (List.range 81).countP fun i => decide (cell b (i / 9) (i % 9) = none)

/-- The candidate loop of `Sudoku::solve` (`for val in 1..10`), with the
remaining candidates as an explicit list.  `f` is the recursive call to
`solve`; the pair returned is (success flag, board after the call), the
flag `false` standing for `Err(())`.  On a failed recursive call the source
resets the chosen cell to `None` and continues with the next candidate. -/
def tryLoop (f : Board → Bool × Board) (row col : Nat) :
    Board → List Nat → Bool × Board
  | b, [] => (false, b)
  | b, val :: rest =>
      if valid_insert b row col val then
        let r := f (setCell b row col (some val))
        if r.1 then r
        else tryLoop f row col (setCell r.2 row col none) rest
      else tryLoop f row col b rest

/-- `Sudoku::solve` with fuel: with fuel left, find the first open cell
(success if none), then run the candidate loop over `1..10`. -/
def solveF : Nat → Board → Bool × Board
  | 0, b => (false, b)
  | fuel + 1, b =>
      match findOpenCell b with
      | none => (true, b)
      | some (row, col) => tryLoop (solveF fuel) row col b (List.range' 1 9)

/-- `Sudoku::solve`: the recursion depth is bounded by the number of open
cells (one cell is filled before each recursive call), so `numOpen b + 1`
units of fuel compute the function (fuel-invariance is proved below). -/
def solve (b : Board) : Bool × Board := solveF (numOpen b + 1) b

/-! ### Basic list and board lemmas -/

theorem set_eq_self_of_getElem? {α : Type} :
    ∀ (l : List α) (i : Nat) (a : α), l[i]? = some a → l.set i a = l
  | [], i, a, h => by simp at h
  | x :: t, 0, a, h => by
      simp only [List.getElem?_cons_zero, Option.some.injEq] at h
      simp [h]
  | x :: t, i + 1, a, h => by
      simp only [List.getElem?_cons_succ] at h
      simp [List.set_cons_succ, set_eq_self_of_getElem? t i a h]

theorem set_eq_self_of_le {α : Type} :
    ∀ (l : List α) (i : Nat) (a : α), l.length ≤ i → l.set i a = l
  | [], _, _, _ => rfl
  | x :: t, 0, a, h => by simp at h
  | x :: t, i + 1, a, h => by
      simp only [List.length_cons, Nat.add_le_add_iff_right] at h
      simp [List.set_cons_succ, set_eq_self_of_le t i a h]

theorem getD_set_self {α : Type} {l : List α} {i : Nat} (hi : i < l.length)
    (a d : α) : (l.set i a).getD i d = a := by
  rw [List.getD_eq_getElem?_getD, List.getElem?_set_self hi]; rfl

theorem getD_set_ne {α : Type} {l : List α} {i j : Nat} (hij : i ≠ j)
    (a d : α) : (l.set i a).getD j d = l.getD j d := by
  rw [List.getD_eq_getElem?_getD, List.getElem?_set_ne hij,
    ← List.getD_eq_getElem?_getD]

theorem cell_setCell_self {b : Board} {r c : Nat} (v : Option Nat)
    (hr : r < b.length) (hc : c < (b.getD r []).length) :
    cell (setCell b r c v) r c = v := by
  unfold cell setCell
  rw [getD_set_self hr, getD_set_self hc]

theorem cell_setCell_ne {b : Board} {r c : Nat} (r' c' : Nat) (v : Option Nat)
    (h : r ≠ r' ∨ c ≠ c') :
    cell (setCell b r c v) r' c' = cell b r' c' := by
  unfold cell setCell
  by_cases hrr : r = r'
  · subst hrr
    rcases h with h | h
    · exact absurd rfl h
    · by_cases hr : r < b.length
      · rw [getD_set_self hr, getD_set_ne h]
      · rw [set_eq_self_of_le _ _ _ (Nat.le_of_not_lt hr)]
  · rw [getD_set_ne hrr]

theorem length_setCell (b : Board) (r c : Nat) (v : Option Nat) :
    (setCell b r c v).length = b.length := by
  unfold setCell; exact List.length_set ..

theorem shaped_setCell {b : Board} (r c : Nat) (v : Option Nat)
    (hb : Shaped b) : Shaped (setCell b r c v) := by
  obtain ⟨hlen, hrows⟩ := hb
  refine ⟨by rw [length_setCell, hlen], fun q hq => ?_⟩
  unfold setCell
  by_cases hrr : r = q
  · subst hrr
    by_cases hr : r < b.length
    · rw [getD_set_self hr]
      rw [List.length_set]
      exact hrows r hq
    · rw [set_eq_self_of_le _ _ _ (Nat.le_of_not_lt hr)]
      exact hrows r hq
  · rw [getD_set_ne hrr]
    exact hrows q hq

theorem setCell_cancel {b : Board} {r c : Nat} (v : Option Nat)
    (hopen : cell b r c = none) :
    setCell (setCell b r c v) r c none = b := by
  by_cases hr : r < b.length
  · have hrow : (setCell b r c v).getD r [] = (b.getD r []).set c v := by
      unfold setCell
      exact getD_set_self hr _ _
    have hrow0 : (b.getD r []).set c none = b.getD r [] := by
      by_cases hc : c < (b.getD r []).length
      · apply set_eq_self_of_getElem?
        unfold cell at hopen
        rw [List.getD_eq_getElem?_getD, List.getElem?_eq_getElem hc] at hopen
        rw [List.getElem?_eq_getElem hc]
        simpa using hopen
      · exact set_eq_self_of_le _ _ _ (Nat.le_of_not_lt hc)
    show (setCell b r c v).set r (((setCell b r c v).getD r []).set c none) = b
    rw [hrow, List.set_set, hrow0]
    show (b.set r ((b.getD r []).set c v)).set r (b.getD r []) = b
    rw [List.set_set]
    apply set_eq_self_of_getElem?
    rw [List.getElem?_eq_getElem hr, List.getD_eq_getElem _ _ hr]
  · have hb1 : setCell b r c v = b := by
      unfold setCell
      exact set_eq_self_of_le _ _ _ (Nat.le_of_not_lt hr)
    rw [hb1]
    unfold setCell
    exact set_eq_self_of_le _ _ _ (Nat.le_of_not_lt hr)

theorem boardExt {a b : Board} (ha : Shaped a) (hb : Shaped b)
    (h : ∀ r < 9, ∀ c < 9, cell a r c = cell b r c) : a = b := by
  obtain ⟨hal, har⟩ := ha
  obtain ⟨hbl, hbr⟩ := hb
  apply List.ext_getElem (by rw [hal, hbl])
  intro r hr1 hr2
  have hr9 : r < 9 := by omega
  have hael : a[r] = a.getD r [] := (List.getD_eq_getElem a [] hr1).symm
  have hbel : b[r] = b.getD r [] := (List.getD_eq_getElem b [] hr2).symm
  apply List.ext_getElem (by rw [hael, hbel, har r hr9, hbr r hr9])
  intro c hc1 hc2
  have hc9 : c < 9 := by rw [hael, har r hr9] at hc1; omega
  have hA : cell a r c = a[r][c] := by
    unfold cell
    rw [← hael]
    exact List.getD_eq_getElem _ _ hc1
  have hB : cell b r c = b[r][c] := by
    unfold cell
    rw [← hbel]
    exact List.getD_eq_getElem _ _ hc2
  have := h r hr9 c hc9
  rwa [hA, hB] at this

/-! ### Counting open cells -/

theorem numOpen_le (b : Board) : numOpen b ≤ 81 := by
  have := List.countP_le_length
    (fun i => decide (cell b (i / 9) (i % 9) = none)) (l := List.range 81)
  simpa [numOpen] using this

theorem numOpen_pos {b : Board} {r c : Nat} (hr : r < 9) (hc : c < 9)
    (hopen : cell b r c = none) : 1 ≤ numOpen b := by
  unfold numOpen
  rw [Nat.succ_le, List.countP_pos_iff]
  refine ⟨r * 9 + c, List.mem_range.mpr (by omega), ?_⟩
  have h1 : (r * 9 + c) / 9 = r := by omega
  have h2 : (r * 9 + c) % 9 = c := by omega
  rw [h1, h2]
  simpa using hopen

theorem findSome?_range_eq_some {α : Type} (g : Nat → Option α) :
    ∀ (n : Nat) (x : α),
      ((List.range n).findSome? g = some x ↔
        ∃ i, i < n ∧ g i = some x ∧ ∀ j < i, g j = none)
  | 0, x => by simp
  | n + 1, x => by
      rw [List.range_succ, List.findSome?_append]
      constructor
      · intro h
        cases hfs : (List.range n).findSome? g with
        | some y =>
            rw [hfs] at h
            simp only [Option.or] at h
            obtain ⟨i, hin, hgi, hbef⟩ := (findSome?_range_eq_some g n y).mp hfs
            exact ⟨i, by omega, h ▸ hgi, hbef⟩
        | none =>
            rw [hfs] at h
            simp only [Option.or] at h
            have hnone : ∀ j < n, g j = none := by
              intro j hj
              exact List.findSome?_eq_none_iff.mp hfs j (List.mem_range.mpr hj)
            cases hg : g n with
            | some z =>
                simp only [List.findSome?_cons, List.findSome?_nil, hg] at h
                exact ⟨n, by omega, h ▸ hg, hnone⟩
            | none =>
                simp only [List.findSome?_cons, List.findSome?_nil, hg] at h
                exact absurd h (by simp)
      · rintro ⟨i, hin, hgi, hbef⟩
        by_cases hi : i = n
        · have hgn : g n = some x := hi ▸ hgi
          have hfs : (List.range n).findSome? g = none :=
            List.findSome?_eq_none_iff.mpr fun j hj =>
              hbef j (by rw [hi]; exact List.mem_range.mp hj)
          rw [hfs]
          simp only [Option.or, List.findSome?_cons, List.findSome?_nil, hgn]
        · have hlt : i < n := by omega
          have hfs : (List.range n).findSome? g = some x :=
            (findSome?_range_eq_some g n x).mpr ⟨i, hlt, hgi, hbef⟩
          rw [hfs]
          rfl

theorem findOpenCell_eq_none {b : Board} :
    findOpenCell b = none ↔ ∀ r < 9, ∀ c < 9, cell b r c ≠ none := by
  unfold findOpenCell
  simp only [List.findSome?_eq_none_iff, List.mem_range]
  constructor
  · intro h r hr c hc hcell
    have := h r hr c hc
    rw [if_pos hcell] at this
    exact absurd this (by simp)
  · intro h r hr c hc
    rw [if_neg (h r hr c hc)]

theorem findOpenCell_eq_some {b : Board} {r c : Nat} :
    findOpenCell b = some (r, c) ↔
      r < 9 ∧ c < 9 ∧ cell b r c = none ∧
      (∀ j < c, cell b r j ≠ none) ∧
      (∀ i < r, ∀ j < 9, cell b i j ≠ none) := by
  unfold findOpenCell
  rw [findSome?_range_eq_some]
  constructor
  · rintro ⟨i, hin, hgi, hbef⟩
    rw [findSome?_range_eq_some] at hgi
    obtain ⟨j, hjn, hgj, hjbef⟩ := hgi
    have hij : cell b i j = none ∧ i = r ∧ j = c := by
      by_cases hb : cell b i j = none
      · rw [if_pos hb] at hgj
        simp only [Option.some.injEq, Prod.mk.injEq] at hgj
        exact ⟨hb, hgj.1, hgj.2⟩
      · rw [if_neg hb] at hgj
        exact absurd hgj (by simp)
    obtain ⟨hopen, hir, hjc⟩ := hij
    subst hir
    subst hjc
    refine ⟨hin, hjn, hopen, ?_, ?_⟩
    · intro j' hj' hcell
      have := hjbef j' hj'
      rw [if_pos hcell] at this
      exact absurd this (by simp)
    · intro i' hi' j' hj' hcell
      have := hbef i' hi'
      rw [List.findSome?_eq_none_iff] at this
      have := this j' (List.mem_range.mpr hj')
      rw [if_pos hcell] at this
      exact absurd this (by simp)
  · rintro ⟨hr, hc, hopen, hrowbef, hprev⟩
    refine ⟨r, hr, ?_, ?_⟩
    · rw [findSome?_range_eq_some]
      refine ⟨c, hc, by rw [if_pos hopen], ?_⟩
      intro j hj
      rw [if_neg (hrowbef j hj)]
    · intro i hi
      rw [List.findSome?_eq_none_iff]
      intro j hj
      rw [if_neg (hprev i hi j (List.mem_range.mp hj))]

theorem findOpenCell_some_open {b : Board} {r c : Nat}
    (h : findOpenCell b = some (r, c)) :
    r < 9 ∧ c < 9 ∧ cell b r c = none := by
  have := findOpenCell_eq_some.mp h
  exact ⟨this.1, this.2.1, this.2.2.1⟩

/-! ### Characterizations of the insertion checks -/

theorem valid_row_insert_iff {b : Board} {row val : Nat} :
    valid_row_insert b row val = true ↔ ∀ c < 9, cell b row c ≠ some val := by
  unfold valid_row_insert
  rw [List.all_eq_true]
  constructor
  · intro h c hc hcell
    have := h c (List.mem_range.mpr hc)
    simp only [hcell, bne_iff_ne, ne_eq, not_true_eq_false] at this
  · intro h c hc
    cases hcell : cell b row c with
    | none => simp
    | some v =>
        simp only [bne_iff_ne, ne_eq, decide_eq_true_eq]
        intro heq
        exact h c (List.mem_range.mp hc) (heq ▸ hcell)

theorem valid_col_insert_iff {b : Board} {col val : Nat} :
    valid_col_insert b col val = true ↔ ∀ r < 9, cell b r col ≠ some val := by
  unfold valid_col_insert
  rw [List.all_eq_true]
  constructor
  · intro h r hr hcell
    have := h r (List.mem_range.mpr hr)
    simp only [hcell, bne_iff_ne, ne_eq, not_true_eq_false] at this
  · intro h r hr
    cases hcell : cell b r col with
    | none => simp
    | some v =>
        simp only [bne_iff_ne, ne_eq, decide_eq_true_eq]
        intro heq
        exact h r (List.mem_range.mp hr) (heq ▸ hcell)

theorem valid_cage_insert_iff {b : Board} {ci cj val : Nat}
    (hci : ci < 3) (hcj : cj < 3) :
    valid_cage_insert b ci cj val = true ↔
      ∀ r < 9, ∀ c < 9, r / 3 = ci → c / 3 = cj → cell b r c ≠ some val := by
  unfold valid_cage_insert
  rw [List.all_eq_true]
  constructor
  · intro h r hr c hc hrci hccj hcell
    have ht : (r % 3) * 3 + c % 3 < 9 := by omega
    have := h ((r % 3) * 3 + c % 3) (List.mem_range.mpr ht)
    have h1 : ci * CAGE_ROWS + ((r % 3) * 3 + c % 3) / 3 = r := by
      show ci * 3 + ((r % 3) * 3 + c % 3) / 3 = r
      omega
    have h2 : cj * CAGE_COLS + ((r % 3) * 3 + c % 3) % 3 = c := by
      show cj * 3 + ((r % 3) * 3 + c % 3) % 3 = c
      omega
    rw [h1, h2] at this
    simp only [hcell, bne_iff_ne, ne_eq, not_true_eq_false] at this
  · intro h t ht
    have ht9 : t < 9 := List.mem_range.mp ht
    have hr : ci * CAGE_ROWS + t / 3 < 9 := by show ci * 3 + t / 3 < 9; omega
    have hc : cj * CAGE_COLS + t % 3 < 9 := by show cj * 3 + t % 3 < 9; omega
    have hrci : (ci * CAGE_ROWS + t / 3) / 3 = ci := by
      show (ci * 3 + t / 3) / 3 = ci; omega
    have hccj : (cj * CAGE_COLS + t % 3) / 3 = cj := by
      show (cj * 3 + t % 3) / 3 = cj; omega
    cases hcell : cell b (ci * CAGE_ROWS + t / 3) (cj * CAGE_COLS + t % 3) with
    | none => simp
    | some v =>
        simp only [bne_iff_ne, ne_eq, decide_eq_true_eq]
        intro heq
        exact h _ hr _ hc hrci hccj (heq ▸ hcell)

theorem valid_insert_iff {b : Board} {row col val : Nat}
    (hr : row < 9) (hc : col < 9) :
    valid_insert b row col val = true ↔
      cell b row col = none ∧
      (∀ c < 9, cell b row c ≠ some val) ∧
      (∀ r < 9, cell b r col ≠ some val) ∧
      (∀ r' < 9, ∀ c' < 9, r' / 3 = row / 3 → c' / 3 = col / 3 →
        cell b r' c' ≠ some val) := by
  unfold valid_insert
  rw [Bool.and_eq_true, Bool.and_eq_true, Bool.and_eq_true,
    valid_row_insert_iff, valid_col_insert_iff,
    valid_cage_insert_iff (show row / 3 < 3 by omega) (show col / 3 < 3 by omega),
    decide_eq_true_iff]
  show (((cell b row col = none ∧ _) ∧ _) ∧ _) ↔ _
  tauto

/-! ### Spec-level predicates on boards -/

/-- The cell holds either nothing or a digit between 1 and 9. -/
def cellOK (o : Option Nat) : Prop := 1 ≤ o.getD 1 ∧ o.getD 1 ≤ 9

/-- Every cell is empty or holds a digit 1-9 (the representation invariant). -/
def InRange (b : Board) : Prop := ∀ r < 9, ∀ c < 9, cellOK (cell b r c)

/-- No cell is empty. -/
def Full (b : Board) : Prop := ∀ r < 9, ∀ c < 9, cell b r c ≠ none

/-- `b2` agrees with `b1` on every filled cell of `b1`. -/
def Extends (b1 b2 : Board) : Prop :=
  ∀ r < 9, ∀ c < 9, cell b1 r c ≠ none → cell b2 r c = cell b1 r c

/-- The two cells share a row, a column or a 3-by-3 cage. -/
def sameUnit (r c r' c' : Nat) : Prop :=
  r = r' ∨ c = c' ∨ (r / 3 = r' / 3 ∧ c / 3 = c' / 3)

/-- No two distinct cells of a common row/column/cage hold the same digit. -/
def Consistent (b : Board) : Prop :=
  ∀ r < 9, ∀ c < 9, ∀ r' < 9, ∀ c' < 9,
    (r, c) ≠ (r', c') → sameUnit r c r' c' → cell b r c ≠ none →
      cell b r c ≠ cell b r' c'

/-- `c` is a full, in-range, verifying board that fills exactly the empty
cells of `b`. -/
def ValidCompletion (b c : Board) : Prop :=
  Shaped c ∧ Extends b c ∧ Full c ∧ InRange c ∧ verify c = some true

/-- Cell at row-major index `k`. -/
def cellIx (b : Board) (k : Nat) : Option Nat := cell b (k / 9) (k % 9)

/-- Rank for the row-major lexicographic order: empty before digits. -/
def optRank : Option Nat → Nat
  | none => 0
  | some v => v + 1

/-- Row-major lexicographic order on boards. -/
def lexLe (a b : Board) : Prop :=
  a = b ∨ ∃ k, k < 81 ∧ (∀ j < k, cellIx a j = cellIx b j) ∧
    optRank (cellIx a k) < optRank (cellIx b k)

instance (r c r' c' : Nat) : Decidable (sameUnit r c r' c') := by
  unfold sameUnit; infer_instance
instance : DecidablePred cellOK := fun o => by unfold cellOK; infer_instance
instance : DecidablePred InRange := fun b => by unfold InRange; infer_instance
instance : DecidablePred Full := fun b => by unfold Full; infer_instance
instance (b1 : Board) : DecidablePred (Extends b1) := fun b2 => by
  unfold Extends; infer_instance
instance : DecidablePred Consistent := fun b => by
  unfold Consistent
  exact @Nat.decidableBallLT 9 _ fun r hr =>
    @Nat.decidableBallLT 9 _ fun c hc =>
      @Nat.decidableBallLT 9 _ fun r' hr' =>
        @Nat.decidableBallLT 9 _ fun c' hc' => by infer_instance
instance (b : Board) : DecidablePred (ValidCompletion b) := fun c => by
  unfold ValidCompletion; infer_instance
instance (a : Board) : DecidablePred (lexLe a) := fun b => by
  unfold lexLe; infer_instance

theorem countP_succ_of_unique {l : List Nat} {p q : Nat → Bool} {i : Nat}
    (hnd : l.Nodup) (hmem : i ∈ l) (hagree : ∀ j ∈ l, j ≠ i → p j = q j)
    (hp : p i = true) (hq : q i = false) : l.countP p = l.countP q + 1 := by
  induction l with
  | nil => simp at hmem
  | cons a t ih =>
      rw [List.nodup_cons] at hnd
      by_cases hai : a = i
      · subst hai
        rw [List.countP_cons_of_pos _ _ hp, List.countP_cons_of_neg _ _ (by simp [hq])]
        have heq : t.countP p = t.countP q := by
          apply List.countP_congr
          intro x hx
          rw [hagree x (List.mem_cons_of_mem _ hx) (fun hxa => hnd.1 (hxa ▸ hx))]
        omega
      · have hit : i ∈ t := by
          rcases List.mem_cons.mp hmem with h | h
          · exact absurd h.symm hai
          · exact h
        have hpa : p a = q a := hagree a (List.mem_cons_self a t) hai
        have ht := ih hnd.2 hit
          (fun j hj hji => hagree j (List.mem_cons_of_mem _ hj) hji)
        by_cases hqa : q a = true
        · rw [List.countP_cons_of_pos _ _ (hpa ▸ hqa), List.countP_cons_of_pos _ _ hqa, ht]
        · rw [List.countP_cons_of_neg _ _ (by rw [hpa]; exact hqa),
            List.countP_cons_of_neg _ _ hqa, ht]

theorem numOpen_setCell {b : Board} {r c : Nat} (v : Nat)
    (hb : Shaped b) (hr : r < 9) (hc : c < 9) (hopen : cell b r c = none) :
    numOpen b = numOpen (setCell b r c (some v)) + 1 := by
  unfold numOpen
  apply countP_succ_of_unique (i := r * 9 + c) (List.nodup_range 81)
    (List.mem_range.mpr (by omega))
  · intro j hj hne
    have hj81 : j < 81 := List.mem_range.mp hj
    have : r ≠ j / 9 ∨ c ≠ j % 9 := by
      by_contra hcon
      push_neg at hcon
      omega
    rw [cell_setCell_ne _ _ _ (by tauto)]
  · have h1 : (r * 9 + c) / 9 = r := by omega
    have h2 : (r * 9 + c) % 9 = c := by omega
    rw [h1, h2]
    simpa using hopen
  · have h1 : (r * 9 + c) / 9 = r := by omega
    have h2 : (r * 9 + c) % 9 = c := by omega
    rw [h1, h2]
    have hrl : r < b.length := by rw [hb.1]; omega
    have hcl : c < (b.getD r []).length := by rw [hb.2 r hr]; omega
    simp [cell_setCell_self _ hrl hcl]

/-! ### Characterization of the verification scan -/

theorem replicate_getD_false (w : Nat) :
    (List.replicate 10 false).getD w false = false := by
  rw [List.getD_eq_getElem?_getD, List.getElem?_replicate]
  by_cases h : w < 10 <;> simp [h]

theorem verifyScan_step {v : Nat} {rest : List (Option Nat)}
    {seen : List Bool} (hlen : seen.length = 10) (hv10 : v < 10) :
    verifyScan (some v :: rest) seen =
      if seen.getD v false = true ∨ 9 < v then some false
      else verifyScan rest (seen.set v true) := by
  have hidx : seen[v]? = some (seen.getD v false) := by
    rw [List.getElem?_eq_getElem (by omega), List.getD_eq_getElem _ _ (by omega)]
  show (match seen[v]? with
    | none => none
    | some sv =>
        if sv = true ∨ 9 < v then some false
        else verifyScan rest (seen.set v true)) = _
  rw [hidx]

theorem verifyScan_panic {v : Nat} {rest : List (Option Nat)}
    {seen : List Bool} (hlen : seen.length = 10) (hv10 : 10 ≤ v) :
    verifyScan (some v :: rest) seen = none := by
  have hidx : seen[v]? = none := List.getElem?_eq_none (by omega)
  show (match seen[v]? with
    | none => none
    | some sv =>
        if sv = true ∨ 9 < v then some false
        else verifyScan rest (seen.set v true)) = none
  rw [hidx]

theorem verifyScan_true_iff :
    ∀ (cells : List (Option Nat)) (seen : List Bool), seen.length = 10 →
      (verifyScan cells seen = some true ↔
        (∀ o ∈ cells, ∃ v, o = some v ∧ v ≤ 9 ∧ seen.getD v false = false) ∧
        cells.Nodup)
  | [], seen, _ => by simp [verifyScan]
  | none :: rest, seen, _ => by
      simp only [verifyScan]
      constructor
      · intro h
        exact absurd h (by simp)
      · intro h
        obtain ⟨v, hv, -⟩ := h.1 none (List.mem_cons_self _ _)
        exact absurd hv (by simp)
  | some v :: rest, seen, hlen => by
      by_cases hv10 : v < 10
      swap
      · rw [verifyScan_panic hlen (by omega)]
        constructor
        · intro h
          exact absurd h (by simp)
        · intro h
          obtain ⟨w, hw, hw9, -⟩ := h.1 (some v) (List.mem_cons_self _ _)
          obtain rfl : v = w := by simpa using hw
          omega
      rw [verifyScan_step hlen hv10]
      by_cases hseen : seen.getD v false = true
      · rw [if_pos (Or.inl hseen)]
        constructor
        · intro h
          exact absurd h (by simp)
        · intro h
          obtain ⟨w, hw, -, hwseen⟩ := h.1 (some v) (List.mem_cons_self _ _)
          obtain rfl : v = w := by simpa using hw
          rw [hseen] at hwseen
          exact absurd hwseen (by simp)
      · have hv9 : ¬ 9 < v := by omega
        rw [if_neg (by push_neg; exact ⟨by simpa using hseen, by omega⟩)]
        have hset : ∀ w, w ≤ 9 →
            ((seen.set v true).getD w false = false ↔
              w ≠ v ∧ seen.getD w false = false) := by
          intro w hw
          by_cases hwv : w = v
          · subst hwv
            rw [getD_set_self (by omega)]
            simp
          · rw [getD_set_ne (fun h => hwv h.symm)]
            simp [hwv]
        rw [verifyScan_true_iff rest (seen.set v true) (by
          rw [List.length_set]; exact hlen)]
        constructor
        · rintro ⟨hall, hnd⟩
          refine ⟨?_, ?_⟩
          · intro o ho
            rcases List.mem_cons.mp ho with rfl | ho
            · exact ⟨v, rfl, by omega, by simpa using hseen⟩
            · obtain ⟨w, rfl, hw9, hwseen⟩ := hall o ho
              exact ⟨w, rfl, hw9, ((hset w hw9).mp hwseen).2⟩
          · rw [List.nodup_cons]
            refine ⟨?_, hnd⟩
            intro hmem
            obtain ⟨w, hw, hw9, hwseen⟩ := hall (some v) hmem
            obtain rfl : v = w := by simpa using hw
            exact absurd rfl ((hset v hw9).mp hwseen).1
        · rintro ⟨hall, hnd⟩
          rw [List.nodup_cons] at hnd
          refine ⟨?_, hnd.2⟩
          intro o ho
          obtain ⟨w, rfl, hw9, hwseen⟩ := hall o (List.mem_cons_of_mem _ ho)
          refine ⟨w, rfl, hw9, (hset w hw9).mpr ⟨?_, hwseen⟩⟩
          intro hwv
          subst hwv
          exact hnd.1 ho

/-- Generic unit characterization: the scan over nine cells `g 0 .. g 8`
succeeds iff every cell holds a value at most 9 and no two cells agree. -/
theorem verifyScan_ne_none :
    ∀ (cells : List (Option Nat)) (seen : List Bool), seen.length = 10 →
      (∀ o ∈ cells, ∀ v, o = some v → v ≤ 9) →
      verifyScan cells seen ≠ none
  | [], _, _, _ => by simp [verifyScan]
  | none :: rest, _, _, _ => by simp [verifyScan]
  | some v :: rest, seen, hlen, hle => by
      have hv9 : v ≤ 9 := hle (some v) (List.mem_cons_self _ _) v rfl
      rw [verifyScan_step hlen (by omega)]
      by_cases hcond : seen.getD v false = true ∨ 9 < v
      · rw [if_pos hcond]
        exact fun hx => Option.noConfusion hx
      · rw [if_neg hcond]
        exact verifyScan_ne_none rest _ (by rw [List.length_set]; exact hlen)
          (fun o ho w hw => hle o (List.mem_cons_of_mem _ ho) w hw)

theorem scan_unit_iff (g : Nat → Option Nat) :
    verifyScan ((List.range 9).map g) (List.replicate 10 false) = some true ↔
      (∀ i < 9, ∃ v, g i = some v ∧ v ≤ 9) ∧
      (∀ i < 9, ∀ j < 9, i ≠ j → g i ≠ g j) := by
  rw [verifyScan_true_iff _ _ (List.length_replicate ..)]
  constructor
  · rintro ⟨hall, hnd⟩
    refine ⟨?_, ?_⟩
    · intro i hi
      obtain ⟨v, hv, hv9, -⟩ :=
        hall (g i) (List.mem_map.mpr ⟨i, List.mem_range.mpr hi, rfl⟩)
      exact ⟨v, hv, hv9⟩
    · have hpw := List.pairwise_map.mp hnd
      rw [List.pairwise_iff_getElem] at hpw
      have hpw9 : ∀ i j, i < 9 → j < 9 → i < j → g i ≠ g j := by
        intro i j hi hj hij
        have := hpw i j (by simpa using hi) (by simpa using hj) hij
        rwa [List.getElem_range, List.getElem_range] at this
      intro i hi j hj hij
      rcases Nat.lt_or_ge i j with h | h
      · exact hpw9 i j hi hj h
      · exact (hpw9 j i hj hi (by omega)).symm
  · rintro ⟨hsome, hdist⟩
    refine ⟨?_, ?_⟩
    · intro o ho
      obtain ⟨i, hi, rfl⟩ := List.mem_map.mp ho
      have hi9 : i < 9 := List.mem_range.mp hi
      obtain ⟨v, hv, hv9⟩ := hsome i hi9
      exact ⟨v, hv, hv9, replicate_getD_false v⟩
    · apply List.pairwise_map.mpr
      rw [List.pairwise_iff_getElem]
      intro i j hi hj hij
      rw [List.getElem_range, List.getElem_range]
      exact hdist i (by simpa using hi) j (by simpa using hj) (by omega)

theorem cellOK_some {v : Nat} : cellOK (some v) ↔ 1 ≤ v ∧ v ≤ 9 := by
  simp [cellOK]

theorem verifyRows_eq_true_iff (b : Board) :
    ∀ is : List Nat,
      (verifyRows b is = some true ↔ ∀ i ∈ is, verify_row b i = some true)
  | [] => by simp [verifyRows]
  | i :: rest => by
      simp only [verifyRows]
      cases hri : verify_row b i with
      | none =>
          constructor
          · intro h
            exact Option.noConfusion (h : (none : Option Bool) = some true)
          · intro h
            have hx := h i (List.mem_cons_self _ _)
            rw [hri] at hx
            exact Option.noConfusion hx
      | some x =>
          cases x with
          | false =>
              constructor
              · intro h
                have hx2 : (some false : Option Bool) = some true := h
                exact absurd hx2 (by decide)
              · intro h
                have hx := h i (List.mem_cons_self _ _)
                rw [hri] at hx
                exact absurd hx (by decide)
          | true =>
              rw [verifyRows_eq_true_iff b rest]
              constructor
              · intro h j hj
                rcases List.mem_cons.mp hj with rfl | hj2
                · exact hri
                · exact h j hj2
              · intro h j hj
                exact h j (List.mem_cons_of_mem _ hj)

theorem verifyCols_eq_true_iff (b : Board) :
    ∀ js : List Nat,
      (verifyCols b js = some true ↔ ∀ j ∈ js, verify_col b j = some true)
  | [] => by simp [verifyCols]
  | j :: rest => by
      simp only [verifyCols]
      cases hrj : verify_col b j with
      | none =>
          constructor
          · intro h
            exact Option.noConfusion (h : (none : Option Bool) = some true)
          · intro h
            have hx := h j (List.mem_cons_self _ _)
            rw [hrj] at hx
            exact Option.noConfusion hx
      | some x =>
          cases x with
          | false =>
              constructor
              · intro h
                have hx2 : (some false : Option Bool) = some true := h
                exact absurd hx2 (by decide)
              · intro h
                have hx := h j (List.mem_cons_self _ _)
                rw [hrj] at hx
                exact absurd hx (by decide)
          | true =>
              rw [verifyCols_eq_true_iff b rest]
              constructor
              · intro h k hk
                rcases List.mem_cons.mp hk with rfl | hk2
                · exact hrj
                · exact h k hk2
              · intro h k hk
                exact h k (List.mem_cons_of_mem _ hk)

theorem verifyCages_eq_true_iff (b : Board) :
    ∀ ps : List (Nat × Nat),
      (verifyCages b ps = some true ↔
        ∀ p ∈ ps, verify_cage b p.1 p.2 = some true)
  | [] => by simp [verifyCages]
  | (ci, cj) :: rest => by
      simp only [verifyCages]
      cases hrp : verify_cage b ci cj with
      | none =>
          constructor
          · intro h
            exact Option.noConfusion (h : (none : Option Bool) = some true)
          · intro h
            have hx := h (ci, cj) (List.mem_cons_self _ _)
            rw [hrp] at hx
            exact Option.noConfusion hx
      | some x =>
          cases x with
          | false =>
              constructor
              · intro h
                have hx2 : (some false : Option Bool) = some true := h
                exact absurd hx2 (by decide)
              · intro h
                have hx := h (ci, cj) (List.mem_cons_self _ _)
                rw [hrp] at hx
                exact absurd hx (by decide)
          | true =>
              rw [verifyCages_eq_true_iff b rest]
              constructor
              · intro h p hp
                rcases List.mem_cons.mp hp with rfl | hp2
                · exact hrp
                · exact h p hp2
              · intro h p hp
                exact h p (List.mem_cons_of_mem _ hp)

theorem mem_cagePairs {p : Nat × Nat} :
    p ∈ cagePairs ↔ p.1 < 3 ∧ p.2 < 3 := by
  unfold cagePairs
  simp only [List.mem_flatMap, List.mem_map, List.mem_range]
  constructor
  · rintro ⟨ci, hci, cj, hcj, rfl⟩
    exact ⟨hci, hcj⟩
  · rintro ⟨h1, h2⟩
    exact ⟨p.1, h1, p.2, h2, rfl⟩

theorem verify_eq_true_iff_units {b : Board} :
    verify b = some true ↔
      (∀ r < 9, verify_row b r = some true) ∧
      (∀ c < 9, verify_col b c = some true) ∧
      (∀ ci < 3, ∀ cj < 3, verify_cage b ci cj = some true) := by
  unfold verify
  constructor
  · intro h
    cases hrows : verifyRows b (List.range ROWS) with
    | none =>
        rw [hrows] at h
        exact Option.noConfusion h
    | some x =>
        cases x with
        | false =>
            rw [hrows] at h
            have hx2 : (some false : Option Bool) = some true := h
            exact absurd hx2 (by decide)
        | true =>
            rw [hrows] at h
            cases hcols : verifyCols b (List.range COLS) with
            | none =>
                rw [hcols] at h
                exact Option.noConfusion h
            | some y =>
                cases y with
                | false =>
                    rw [hcols] at h
                    have hx2 : (some false : Option Bool) = some true := h
                    exact absurd hx2 (by decide)
                | true =>
                    rw [hcols] at h
                    refine ⟨?_, ?_, ?_⟩
                    · intro r hr
                      exact (verifyRows_eq_true_iff b _).mp hrows r
                        (List.mem_range.mpr hr)
                    · intro c hc
                      exact (verifyCols_eq_true_iff b _).mp hcols c
                        (List.mem_range.mpr hc)
                    · intro ci hci cj hcj
                      exact (verifyCages_eq_true_iff b _).mp h (ci, cj)
                        (mem_cagePairs.mpr ⟨hci, hcj⟩)
  · rintro ⟨h1, h2, h3⟩
    have hrows : verifyRows b (List.range ROWS) = some true :=
      (verifyRows_eq_true_iff b _).mpr
        (fun i hi => h1 i (List.mem_range.mp hi))
    have hcols : verifyCols b (List.range COLS) = some true :=
      (verifyCols_eq_true_iff b _).mpr
        (fun j hj => h2 j (List.mem_range.mp hj))
    have hcages : verifyCages b cagePairs = some true :=
      (verifyCages_eq_true_iff b _).mpr
        (fun p hp => h3 p.1 (mem_cagePairs.mp hp).1 p.2 (mem_cagePairs.mp hp).2)
    rw [hrows, hcols]
    exact hcages

theorem verify_row_ne_none {b : Board} {row : Nat}
    (hle : ∀ c < 9, ∀ v, cell b row c = some v → v ≤ 9) :
    verify_row b row ≠ none := by
  apply verifyScan_ne_none (rowCells b row) _ (List.length_replicate ..)
  intro o ho v hv
  unfold rowCells at ho
  obtain ⟨c, hc, rfl⟩ := List.mem_map.mp ho
  exact hle c (List.mem_range.mp hc) v hv

theorem verify_col_ne_none {b : Board} {col : Nat}
    (hle : ∀ r < 9, ∀ v, cell b r col = some v → v ≤ 9) :
    verify_col b col ≠ none := by
  apply verifyScan_ne_none (colCells b col) _ (List.length_replicate ..)
  intro o ho v hv
  unfold colCells at ho
  obtain ⟨r, hr, rfl⟩ := List.mem_map.mp ho
  exact hle r (List.mem_range.mp hr) v hv

theorem verify_cage_ne_none {b : Board} {ci cj : Nat}
    (hle : ∀ r < 9, ∀ c < 9, ∀ v, cell b r c = some v → v ≤ 9)
    (hci : ci < 3) (hcj : cj < 3) :
    verify_cage b ci cj ≠ none := by
  apply verifyScan_ne_none (cageCells b ci cj) _ (List.length_replicate ..)
  intro o ho v hv
  unfold cageCells at ho
  obtain ⟨t, ht, rfl⟩ := List.mem_map.mp ho
  have ht9 : t < 9 := List.mem_range.mp ht
  exact hle (ci * CAGE_ROWS + t / 3)
    (by show ci * 3 + t / 3 < 9; omega)
    (cj * CAGE_COLS + t % 3)
    (by show cj * 3 + t % 3 < 9; omega) v hv

theorem verifyRows_ne_none (b : Board) :
    ∀ is : List Nat, (∀ i ∈ is, verify_row b i ≠ none) →
      verifyRows b is ≠ none
  | [], _ => by simp [verifyRows]
  | i :: rest, h => by
      simp only [verifyRows]
      cases hri : verify_row b i with
      | none => exact absurd hri (h i (List.mem_cons_self _ _))
      | some x =>
          cases x with
          | false => exact fun hx => Option.noConfusion hx
          | true =>
              exact verifyRows_ne_none b rest
                (fun j hj => h j (List.mem_cons_of_mem _ hj))

theorem verifyCols_ne_none (b : Board) :
    ∀ js : List Nat, (∀ j ∈ js, verify_col b j ≠ none) →
      verifyCols b js ≠ none
  | [], _ => by simp [verifyCols]
  | j :: rest, h => by
      simp only [verifyCols]
      cases hrj : verify_col b j with
      | none => exact absurd hrj (h j (List.mem_cons_self _ _))
      | some x =>
          cases x with
          | false => exact fun hx => Option.noConfusion hx
          | true =>
              exact verifyCols_ne_none b rest
                (fun k hk => h k (List.mem_cons_of_mem _ hk))

theorem verifyCages_ne_none (b : Board) :
    ∀ ps : List (Nat × Nat), (∀ p ∈ ps, verify_cage b p.1 p.2 ≠ none) →
      verifyCages b ps ≠ none
  | [], _ => by simp [verifyCages]
  | (ci, cj) :: rest, h => by
      simp only [verifyCages]
      cases hrp : verify_cage b ci cj with
      | none => exact absurd hrp (h (ci, cj) (List.mem_cons_self _ _))
      | some x =>
          cases x with
          | false => exact fun hx => Option.noConfusion hx
          | true =>
              exact verifyCages_ne_none b rest
                (fun p hp => h p (List.mem_cons_of_mem _ hp))

theorem verify_ne_none_of_le9 {b : Board}
    (hle : ∀ r < 9, ∀ c < 9, ∀ v, cell b r c = some v → v ≤ 9) :
    verify b ≠ none := by
  unfold verify
  have hrn : verifyRows b (List.range ROWS) ≠ none := by
    apply verifyRows_ne_none
    intro i hi
    exact verify_row_ne_none
      (fun c hc v hv => hle i (by simpa using hi) c hc v hv)
  cases hrows : verifyRows b (List.range ROWS) with
  | none => exact absurd hrows hrn
  | some x =>
      cases x with
      | false => exact fun hx => Option.noConfusion hx
      | true =>
          have hcn : verifyCols b (List.range COLS) ≠ none := by
            apply verifyCols_ne_none
            intro j hj
            exact verify_col_ne_none
              (fun r hr v hv => hle r hr j (by simpa using hj) v hv)
          cases hcols : verifyCols b (List.range COLS) with
          | none => exact absurd hcols hcn
          | some y =>
              cases y with
              | false => exact fun hx => Option.noConfusion hx
              | true =>
                  apply verifyCages_ne_none
                  intro p hp
                  obtain ⟨h1, h2⟩ := mem_cagePairs.mp hp
                  exact verify_cage_ne_none hle h1 h2

theorem verify_row_iff {b : Board} {row : Nat} :
    verify_row b row = some true ↔
      (∀ c < 9, ∃ v, cell b row c = some v ∧ v ≤ 9) ∧
      (∀ c < 9, ∀ c' < 9, c ≠ c' → cell b row c ≠ cell b row c') :=
  scan_unit_iff fun c => cell b row c

theorem verify_col_iff {b : Board} {col : Nat} :
    verify_col b col = some true ↔
      (∀ r < 9, ∃ v, cell b r col = some v ∧ v ≤ 9) ∧
      (∀ r < 9, ∀ r' < 9, r ≠ r' → cell b r col ≠ cell b r' col) :=
  scan_unit_iff fun r => cell b r col

theorem verify_cage_iff {b : Board} {ci cj : Nat} :
    verify_cage b ci cj = some true ↔
      (∀ t < 9, ∃ v, cell b (ci * 3 + t / 3) (cj * 3 + t % 3) = some v ∧ v ≤ 9) ∧
      (∀ t < 9, ∀ u < 9, t ≠ u →
        cell b (ci * 3 + t / 3) (cj * 3 + t % 3) ≠
          cell b (ci * 3 + u / 3) (cj * 3 + u % 3)) :=
  scan_unit_iff fun t => cell b (ci * 3 + t / 3) (cj * 3 + t % 3)

theorem verify_full {b : Board} (h : verify b = some true) : Full b := by
  intro r hr c hc hcell
  have hrow := (verify_eq_true_iff_units.mp h).1 r hr
  obtain ⟨v, hv, -⟩ := (verify_row_iff.mp hrow).1 c hc
  rw [hcell] at hv
  exact absurd hv (by simp)

theorem verify_le9 {b : Board} (h : verify b = some true) :
    ∀ r < 9, ∀ c < 9, ∀ v, cell b r c = some v → v ≤ 9 := by
  intro r hr c hc v hcell
  have hrow := (verify_eq_true_iff_units.mp h).1 r hr
  obtain ⟨w, hw, hw9⟩ := (verify_row_iff.mp hrow).1 c hc
  rw [hcell] at hw
  obtain rfl : v = w := by simpa using hw
  exact hw9

theorem verify_consistent {b : Board} (h : verify b = some true) : Consistent b := by
  obtain ⟨hrows, hcols, hcages⟩ := verify_eq_true_iff_units.mp h
  intro r hr c hc r' hr' c' hc' hne hunit hcell
  rcases hunit with hrr | hcc | ⟨hdr, hdc⟩
  · have hcne : c ≠ c' := by
      intro hcc
      exact hne (by rw [hrr, hcc])
    have := (verify_row_iff.mp (hrows r hr)).2 c hc c' hc' hcne
    rw [← hrr]
    exact this
  · have hrne : r ≠ r' := by
      intro hrr
      exact hne (by rw [hrr, hcc])
    have := (verify_col_iff.mp (hcols c hc)).2 r hr r' hr' hrne
    rw [← hcc]
    exact this
  · have hci : r / 3 < 3 := by omega
    have hcj : c / 3 < 3 := by omega
    have hcage := (verify_cage_iff.mp (hcages (r / 3) hci (c / 3) hcj)).2
    have ht : (r % 3) * 3 + c % 3 < 9 := by omega
    have ht' : (r' % 3) * 3 + c' % 3 < 9 := by omega
    have htt : (r % 3) * 3 + c % 3 ≠ (r' % 3) * 3 + c' % 3 := by
      intro heq
      apply hne
      have h1 : r = r' := by omega
      have h2 : c = c' := by omega
      rw [h1, h2]
    have hres := hcage _ ht _ ht' htt
    have e1 : r / 3 * 3 + ((r % 3) * 3 + c % 3) / 3 = r := by omega
    have e2 : c / 3 * 3 + ((r % 3) * 3 + c % 3) % 3 = c := by omega
    have e3 : r / 3 * 3 + ((r' % 3) * 3 + c' % 3) / 3 = r' := by omega
    have e4 : c / 3 * 3 + ((r' % 3) * 3 + c' % 3) % 3 = c' := by omega
    rwa [e1, e2, e3, e4] at hres

theorem verify_of_full_consistent {b : Board} (hf : Full b) (hir : InRange b)
    (hcons : Consistent b) : verify b = some true := by
  rw [verify_eq_true_iff_units]
  refine ⟨?_, ?_, ?_⟩
  · intro r hr
    rw [verify_row_iff]
    refine ⟨?_, ?_⟩
    · intro c hc
      cases hcell : cell b r c with
      | none => exact absurd hcell (hf r hr c hc)
      | some v =>
          refine ⟨v, rfl, ?_⟩
          have := hir r hr c hc
          rw [hcell, cellOK_some] at this
          exact this.2
    · intro c hc c' hc' hne
      exact hcons r hr c hc r hr c' hc' (by simp [hne]) (Or.inl rfl)
        (hf r hr c hc)
  · intro c hc
    rw [verify_col_iff]
    refine ⟨?_, ?_⟩
    · intro r hr
      cases hcell : cell b r c with
      | none => exact absurd hcell (hf r hr c hc)
      | some v =>
          refine ⟨v, rfl, ?_⟩
          have := hir r hr c hc
          rw [hcell, cellOK_some] at this
          exact this.2
    · intro r hr r' hr' hne
      exact hcons r hr c hc r' hr' c hc (by simp [hne]) (Or.inr (Or.inl rfl))
        (hf r hr c hc)
  · intro ci hci cj hcj
    rw [verify_cage_iff]
    have hbr : ∀ t < 9, ci * 3 + t / 3 < 9 := by intro t ht; omega
    have hbc : ∀ t < 9, cj * 3 + t % 3 < 9 := by intro t ht; omega
    refine ⟨?_, ?_⟩
    · intro t ht
      cases hcell : cell b (ci * 3 + t / 3) (cj * 3 + t % 3) with
      | none => exact absurd hcell (hf _ (hbr t ht) _ (hbc t ht))
      | some v =>
          refine ⟨v, rfl, ?_⟩
          have := hir _ (hbr t ht) _ (hbc t ht)
          rw [hcell, cellOK_some] at this
          exact this.2
    · intro t ht u hu hne
      apply hcons _ (hbr t ht) _ (hbc t ht) _ (hbr u hu) _ (hbc u hu)
      · simp only [ne_eq, Prod.mk.injEq, not_and]
        intro h1 h2
        omega
      · refine Or.inr (Or.inr ⟨by omega, by omega⟩)
      · exact hf _ (hbr t ht) _ (hbc t ht)

/-! ### Digits 1-9 exactly once: the permutation view of a verified unit -/

/-- The list `[some 1, ..., some 9]`. -/
def digitsL : List (Option Nat) := (List.range' 1 9).map some

theorem digitsL_nodup : digitsL.Nodup := by
  unfold digitsL
  decide

theorem mem_digitsL {o : Option Nat} :
    o ∈ digitsL ↔ ∃ d, o = some d ∧ 1 ≤ d ∧ d ≤ 9 := by
  unfold digitsL
  rcases o with - | d
  · decide
  · simp only [List.mem_map, List.mem_range', Option.some.injEq]
    constructor
    · rintro ⟨x, hx, rfl⟩
      obtain ⟨i, hi, rfl⟩ := hx
      exact ⟨1 + 1 * i, rfl, by omega, by omega⟩
    · rintro ⟨e, he, h1, h9⟩
      obtain rfl : d = e := by simpa using he
      exact ⟨d, ⟨d - 1, by omega, by omega⟩, rfl⟩

theorem unit_scan_iff_perm (g : Nat → Option Nat)
    (hge : ∀ i < 9, ∀ v, g i = some v → 1 ≤ v) :
    (verifyScan ((List.range 9).map g) (List.replicate 10 false) = some true ↔
      ((List.range 9).map g).Perm digitsL) := by
  rw [scan_unit_iff]
  constructor
  · rintro ⟨hsome, hdist⟩
    have hnd : ((List.range 9).map g).Nodup := by
      apply List.pairwise_map.mpr
      rw [List.pairwise_iff_getElem]
      intro i j hi hj hij
      rw [List.getElem_range, List.getElem_range]
      exact hdist i (by simpa using hi) j (by simpa using hj) (by omega)
    have hsub : ((List.range 9).map g) ⊆ digitsL := by
      intro o ho
      obtain ⟨i, hi, rfl⟩ := List.mem_map.mp ho
      have hi9 : i < 9 := List.mem_range.mp hi
      obtain ⟨v, hv, hv9⟩ := hsome i hi9
      exact mem_digitsL.mpr ⟨v, hv, hge i hi9 v hv, hv9⟩
    have hsp := hnd.subperm hsub
    exact hsp.perm_of_length_le (by simp [digitsL])
  · intro hperm
    have hnd : ((List.range 9).map g).Nodup :=
      (hperm.nodup_iff).mpr digitsL_nodup
    refine ⟨?_, ?_⟩
    · intro i hi
      have hmem : g i ∈ digitsL :=
        hperm.subset (List.mem_map.mpr ⟨i, List.mem_range.mpr hi, rfl⟩)
      obtain ⟨d, hd, -, hd9⟩ := mem_digitsL.mp hmem
      exact ⟨d, hd, hd9⟩
    · have hpw := List.pairwise_map.mp hnd
      rw [List.pairwise_iff_getElem] at hpw
      intro i hi j hj hij
      rcases Nat.lt_or_ge i j with h | h
      · have := hpw i j (by simpa using hi) (by simpa using hj) h
        rwa [List.getElem_range, List.getElem_range] at this
      · have := hpw j i (by simpa using hj) (by simpa using hi) (by omega)
        rw [List.getElem_range, List.getElem_range] at this
        exact this.symm

/-- The number of cells of the list holding exactly the digit `d`. -/
def countVal (cells : List (Option Nat)) (d : Nat) : Nat :=
  cells.countP fun o => decide (o = some d)

theorem countP_eq_one_of_nodup_mem {α : Type} [DecidableEq α] {l : List α}
    {a : α} (hnd : l.Nodup) (hmem : a ∈ l) :
    (l.countP fun x => decide (x = a)) = 1 := by
  induction l with
  | nil => simp at hmem
  | cons x t ih =>
      rw [List.nodup_cons] at hnd
      by_cases hxa : x = a
      · subst hxa
        rw [List.countP_cons_of_pos _ _ (by simp)]
        have hz : (t.countP fun y => decide (y = x)) = 0 := by
          apply List.countP_eq_zero.mpr
          intro b hb
          simp only [decide_eq_true_eq]
          intro hbx
          exact hnd.1 (hbx ▸ hb)
        omega
      · rw [List.countP_cons_of_neg _ _ (by simp [hxa])]
        refine ih hnd.2 ?_
        rcases List.mem_cons.mp hmem with h | h
        · exact absurd h.symm hxa
        · exact h

theorem count_ddec_eq_countP {α : Type} [DecidableEq α] (l : List α) (a : α) :
    @List.count α instBEqOfDecidableEq a l = l.countP fun x => decide (x = a) :=
  rfl

theorem perm_digitsL_iff_counts {cells : List (Option Nat)}
    (h9 : cells.length = 9) :
    cells.Perm digitsL ↔
      ∀ d < 10, 1 ≤ d → countVal cells d = 1 := by
  constructor
  · intro hperm d hd10 hd1
    unfold countVal
    rw [List.Perm.countP_eq _ hperm]
    exact countP_eq_one_of_nodup_mem digitsL_nodup
      (mem_digitsL.mpr ⟨d, rfl, hd1, by omega⟩)
  · intro hcount
    have hsp : digitsL.Subperm cells := by
      rw [List.subperm_ext_iff]
      intro x hx
      obtain ⟨d, rfl, hd1, hd9⟩ := mem_digitsL.mp hx
      rw [count_ddec_eq_countP, count_ddec_eq_countP,
        countP_eq_one_of_nodup_mem digitsL_nodup hx]
      have := hcount d (by omega) hd1
      unfold countVal at this
      omega
    exact (hsp.perm_of_length_le (by simp [digitsL, h9])).symm

/-! ### The candidate loop: failure restores the board -/

theorem tryLoop_restore {f : Board → Bool × Board} {row col : Nat}
    (hf : ∀ x, (f x).1 = false → (f x).2 = x) :
    ∀ (vs : List Nat) (b : Board), cell b row col = none →
      (tryLoop f row col b vs).1 = false → (tryLoop f row col b vs).2 = b
  | [], b, _, _ => rfl
  | val :: rest, b, hopen, h => by
      simp only [tryLoop] at h ⊢
      by_cases hvi : valid_insert b row col val = true
      · rw [if_pos hvi] at h ⊢
        cases hr : f (setCell b row col (some val)) with
        | mk ok b2 =>
            rw [hr] at h
            cases ok with
            | true => exact absurd (h : true = false) (by simp)
            | false =>
                have hb2 : b2 = setCell b row col (some val) := by
                  have hx := hf (setCell b row col (some val)) (by rw [hr])
                  rw [hr] at hx
                  exact hx
                have hrestored : setCell b2 row col none = b := by
                  rw [hb2]
                  exact setCell_cancel _ hopen
                have h2 : (tryLoop f row col (setCell b2 row col none) rest).1
                    = false := h
                rw [hrestored] at h2
                show (tryLoop f row col (setCell b2 row col none) rest).2 = b
                rw [hrestored]
                exact tryLoop_restore hf rest b hopen h2
      · rw [if_neg hvi] at h ⊢
        exact tryLoop_restore hf rest b hopen h

theorem solveF_restore : ∀ (fuel : Nat) (b : Board),
    (solveF fuel b).1 = false → (solveF fuel b).2 = b
  | 0, _, _ => rfl
  | fuel + 1, b, h => by
      simp only [solveF] at h ⊢
      cases hfo : findOpenCell b with
      | none => rfl
      | some rc =>
          obtain ⟨row, col⟩ := rc
          rw [hfo] at h
          have hopen := (findOpenCell_some_open hfo).2.2
          exact tryLoop_restore (solveF_restore fuel) _ b hopen h

theorem solve_restore {b : Board} (h : (solve b).1 = false) :
    (solve b).2 = b := solveF_restore _ b h

/-! ### The candidate loop: shape of a success -/

theorem tryLoop_success {f : Board → Bool × Board} {row col : Nat}
    (hf : ∀ x, (f x).1 = false → (f x).2 = x) :
    ∀ (vs : List Nat) (b : Board), cell b row col = none →
      (tryLoop f row col b vs).1 = true →
      ∃ v ∈ vs, valid_insert b row col v = true ∧
        f (setCell b row col (some v)) = tryLoop f row col b vs
  | [], b, _, h => by simp [tryLoop] at h
  | val :: rest, b, hopen, h => by
      simp only [tryLoop] at h ⊢
      by_cases hvi : valid_insert b row col val = true
      · rw [if_pos hvi] at h ⊢
        cases hr : f (setCell b row col (some val)) with
        | mk ok b2 =>
            rw [hr] at h
            cases ok with
            | true =>
                refine ⟨val, List.mem_cons_self _ _, hvi, ?_⟩
                show f (setCell b row col (some val)) = (true, b2)
                exact hr
            | false =>
                have hb2 : b2 = setCell b row col (some val) := by
                  have hx := hf (setCell b row col (some val)) (by rw [hr])
                  rw [hr] at hx
                  exact hx
                have hrestored : setCell b2 row col none = b := by
                  rw [hb2]
                  exact setCell_cancel _ hopen
                have h2 : (tryLoop f row col (setCell b2 row col none) rest).1
                    = true := h
                rw [hrestored] at h2
                obtain ⟨v, hv, hvvi, heq⟩ := tryLoop_success hf rest b hopen h2
                refine ⟨v, List.mem_cons_of_mem _ hv, hvvi, ?_⟩
                show f (setCell b row col (some v)) =
                  tryLoop f row col (setCell b2 row col none) rest
                rw [hrestored]
                exact heq
      · rw [if_neg hvi] at h ⊢
        obtain ⟨v, hv, hvvi, heq⟩ := tryLoop_success hf rest b hopen h
        exact ⟨v, List.mem_cons_of_mem _ hv, hvvi, heq⟩

theorem mem_range_1_9 {v : Nat} (h : v ∈ List.range' 1 9) : 1 ≤ v ∧ v ≤ 9 := by
  rw [List.mem_range'] at h
  obtain ⟨i, hi, rfl⟩ := h
  omega

/-- A property `P` preserved along every placement made by `solve` holds of
the final board on success. -/
theorem solveF_success_inv (P : Board → Prop)
    (hP : ∀ x row col v, P x → findOpenCell x = some (row, col) →
      valid_insert x row col v = true → 1 ≤ v → v ≤ 9 →
      P (setCell x row col (some v))) :
    ∀ (fuel : Nat) (b : Board), P b → (solveF fuel b).1 = true →
      P (solveF fuel b).2
  | 0, b, _, h => by simp [solveF] at h
  | fuel + 1, b, hPb, h => by
      simp only [solveF] at h ⊢
      cases hfo : findOpenCell b with
      | none => exact hPb
      | some rc =>
          obtain ⟨row, col⟩ := rc
          rw [hfo] at h
          have hopen := (findOpenCell_some_open hfo).2.2
          have h2 : (tryLoop (solveF fuel) row col b (List.range' 1 9)).1
              = true := h
          obtain ⟨v, hv, hvi, heq⟩ :=
            tryLoop_success (solveF_restore fuel) _ b hopen h2
          obtain ⟨hv1, hv9⟩ := mem_range_1_9 hv
          show P ((tryLoop (solveF fuel) row col b (List.range' 1 9)).2)
          rw [← heq] at h2 ⊢
          exact solveF_success_inv P hP fuel _
            (hP b row col v hPb hfo hvi hv1 hv9) h2

theorem solveF_success_noOpen : ∀ (fuel : Nat) (b : Board),
    (solveF fuel b).1 = true → findOpenCell (solveF fuel b).2 = none
  | 0, b, h => by simp [solveF] at h
  | fuel + 1, b, h => by
      simp only [solveF] at h ⊢
      cases hfo : findOpenCell b with
      | none => exact hfo
      | some rc =>
          obtain ⟨row, col⟩ := rc
          rw [hfo] at h
          have hopen := (findOpenCell_some_open hfo).2.2
          have h2 : (tryLoop (solveF fuel) row col b (List.range' 1 9)).1
              = true := h
          obtain ⟨v, hv, hvi, heq⟩ :=
            tryLoop_success (solveF_restore fuel) _ b hopen h2
          show findOpenCell
            ((tryLoop (solveF fuel) row col b (List.range' 1 9)).2) = none
          rw [← heq] at h2 ⊢
          exact solveF_success_noOpen fuel _ h2

/-! ### Invariants preserved by a valid placement -/

theorem extends_refl (b : Board) : Extends b b := fun _ _ _ _ _ => rfl

theorem extends_trans {a b c : Board} (h1 : Extends a b) (h2 : Extends b c) :
    Extends a c := by
  intro r hr s hs hfill
  have hb := h1 r hr s hs hfill
  have hbne : cell b r s ≠ none := by rw [hb]; exact hfill
  rw [h2 r hr s hs hbne, hb]

theorem extends_setCell {b0 x : Board} {row col : Nat} (v : Option Nat)
    (hr : row < 9) (hc : col < 9)
    (hopen : cell x row col = none) (hext : Extends b0 x) :
    Extends b0 (setCell x row col v) := by
  intro r hrr s hs hfill
  by_cases hpos : row = r ∧ col = s
  · obtain ⟨h1, h2⟩ := hpos
    subst h1
    subst h2
    have hxb := hext row hrr col hs hfill
    rw [hopen] at hxb
    exact absurd hxb.symm hfill
  · have hne : row ≠ r ∨ col ≠ s := by tauto
    rw [cell_setCell_ne _ _ _ hne]
    exact hext r hrr s hs hfill

theorem inRange_setCell {x : Board} {row col v : Nat}
    (hx : Shaped x) (hr : row < 9) (hc : col < 9) (hir : InRange x)
    (h1 : 1 ≤ v) (h9 : v ≤ 9) : InRange (setCell x row col (some v)) := by
  intro r hrr s hs
  by_cases hpos : row = r ∧ col = s
  · obtain ⟨he1, he2⟩ := hpos
    subst he1
    subst he2
    rw [cell_setCell_self _ (by rw [hx.1]; omega) (by rw [hx.2 row hr]; omega)]
    exact cellOK_some.mpr ⟨h1, h9⟩
  · rw [cell_setCell_ne _ _ _ (by tauto)]
    exact hir r hrr s hs

theorem consistent_setCell {x : Board} {row col v : Nat}
    (hx : Shaped x) (hr : row < 9) (hc : col < 9)
    (hcons : Consistent x) (hvi : valid_insert x row col v = true) :
    Consistent (setCell x row col (some v)) := by
  obtain ⟨hopen, hrowv, hcolv, hcagev⟩ := (valid_insert_iff hr hc).mp hvi
  have hself : cell (setCell x row col (some v)) row col = some v :=
    cell_setCell_self _ (by rw [hx.1]; omega) (by rw [hx.2 row hr]; omega)
  intro r1 hr1 c1 hc1 r2 hr2 c2 hc2 hne hunit hfill
  by_cases hp1 : row = r1 ∧ col = c1
  · obtain ⟨he1, he2⟩ := hp1
    subst he1
    subst he2
    have hne2 : row ≠ r2 ∨ col ≠ c2 := by
      by_contra hcon
      push_neg at hcon
      exact hne (by rw [hcon.1, hcon.2])
    rw [hself, cell_setCell_ne _ _ _ hne2]
    intro heq
    rcases hunit with h | h | ⟨hdr, hdc⟩
    · have hx2 := hrowv c2 hc2
      rw [h] at hx2
      exact hx2 heq.symm
    · have hx2 := hcolv r2 hr2
      rw [h] at hx2
      exact hx2 heq.symm
    · exact hcagev r2 hr2 c2 hc2 hdr.symm hdc.symm heq.symm
  · by_cases hp2 : row = r2 ∧ col = c2
    · obtain ⟨he1, he2⟩ := hp2
      subst he1
      subst he2
      rw [cell_setCell_ne _ _ _ (by tauto)] at hfill
      rw [cell_setCell_ne _ _ _ (by tauto), hself]
      intro heq
      rcases hunit with h | h | ⟨hdr, hdc⟩
      · have hx1 := hrowv c1 hc1
        rw [← h] at hx1
        exact hx1 heq
      · have hx1 := hcolv r1 hr1
        rw [← h] at hx1
        exact hx1 heq
      · exact hcagev r1 hr1 c1 hc1 hdr hdc heq
    · rw [cell_setCell_ne _ _ _ (by tauto)] at hfill
      rw [cell_setCell_ne _ _ _ (by tauto), cell_setCell_ne _ _ _ (by tauto)]
      exact hcons r1 hr1 c1 hc1 r2 hr2 c2 hc2 hne hunit hfill

/-! ### Invariants of a successful solve -/

theorem solveF_success_shaped_extends {fuel : Nat} {b : Board}
    (hb : Shaped b) (h : (solveF fuel b).1 = true) :
    Shaped (solveF fuel b).2 ∧ Extends b (solveF fuel b).2 := by
  refine solveF_success_inv (fun x => Shaped x ∧ Extends b x) ?_ fuel b
    ⟨hb, extends_refl b⟩ h
  rintro x row col v ⟨hxs, hxe⟩ hfo hvi h1 h9
  obtain ⟨hrr, hcc, hopen⟩ := findOpenCell_some_open hfo
  exact ⟨shaped_setCell _ _ _ hxs, extends_setCell _ hrr hcc hopen hxe⟩

theorem solveF_success_inRange {fuel : Nat} {b : Board}
    (hb : Shaped b) (hir : InRange b) (h : (solveF fuel b).1 = true) :
    InRange (solveF fuel b).2 := by
  refine (solveF_success_inv (fun x => Shaped x ∧ InRange x) ?_ fuel b
    ⟨hb, hir⟩ h).2
  rintro x row col v ⟨hxs, hxi⟩ hfo hvi h1 h9
  obtain ⟨hrr, hcc, hopen⟩ := findOpenCell_some_open hfo
  exact ⟨shaped_setCell _ _ _ hxs, inRange_setCell hxs hrr hcc hxi h1 h9⟩

theorem solveF_success_consistent {fuel : Nat} {b : Board}
    (hb : Shaped b) (hcons : Consistent b) (h : (solveF fuel b).1 = true) :
    Consistent (solveF fuel b).2 := by
  refine (solveF_success_inv (fun x => Shaped x ∧ Consistent x) ?_ fuel b
    ⟨hb, hcons⟩ h).2
  rintro x row col v ⟨hxs, hxc⟩ hfo hvi h1 h9
  obtain ⟨hrr, hcc, hopen⟩ := findOpenCell_some_open hfo
  exact ⟨shaped_setCell _ _ _ hxs, consistent_setCell hxs hrr hcc hxc hvi⟩

theorem solveF_success_full {fuel : Nat} {b : Board}
    (h : (solveF fuel b).1 = true) : Full (solveF fuel b).2 := by
  have hno := solveF_success_noOpen fuel b h
  rwa [findOpenCell_eq_none] at hno

/-- Soundness: a successful solve of a shaped, in-range, consistent board
verifies. -/
theorem solveF_sound {fuel : Nat} {b : Board} (hb : Shaped b)
    (hir : InRange b) (hcons : Consistent b)
    (h : (solveF fuel b).1 = true) : verify (solveF fuel b).2 = some true :=
  verify_of_full_consistent (solveF_success_full h)
    (solveF_success_inRange hb hir h)
    (solveF_success_consistent hb hcons h)

/-! ### Fuel invariance: the recursion depth is bounded by the open cells -/

theorem tryLoop_congr {f1 f2 : Board → Bool × Board} {row col : Nat}
    (hf1 : ∀ x, (f1 x).1 = false → (f1 x).2 = x) {b : Board}
    (hopen : cell b row col = none)
    (hagree : ∀ v, f1 (setCell b row col (some v)) =
      f2 (setCell b row col (some v))) :
    ∀ vs, tryLoop f1 row col b vs = tryLoop f2 row col b vs
  | [] => rfl
  | val :: rest => by
      simp only [tryLoop]
      by_cases hvi : valid_insert b row col val = true
      · simp only [if_pos hvi]
        cases hr : f1 (setCell b row col (some val)) with
        | mk ok b2 =>
            have hr2 : f2 (setCell b row col (some val)) = (ok, b2) := by
              rw [← hagree val, hr]
            rw [hr2]
            cases ok with
            | true => rfl
            | false =>
                have hb2 : b2 = setCell b row col (some val) := by
                  have hx := hf1 (setCell b row col (some val)) (by rw [hr])
                  rw [hr] at hx
                  exact hx
                have hrestored : setCell b2 row col none = b := by
                  rw [hb2]
                  exact setCell_cancel _ hopen
                show tryLoop f1 row col (setCell b2 row col none) rest =
                  tryLoop f2 row col (setCell b2 row col none) rest
                rw [hrestored]
                exact tryLoop_congr hf1 hopen hagree rest
      · simp only [if_neg hvi]
        exact tryLoop_congr hf1 hopen hagree rest

theorem solveF_congr : ∀ (n : Nat) (b : Board) (f1 f2 : Nat), Shaped b →
    numOpen b = n → n < f1 → n < f2 → solveF f1 b = solveF f2 b := by
  intro n
  induction n using Nat.strong_induction_on with
  | _ n ih =>
      intro b f1 f2 hb hn h1 h2
      obtain ⟨g1, rfl⟩ : ∃ k, f1 = k + 1 := ⟨f1 - 1, by omega⟩
      obtain ⟨g2, rfl⟩ : ∃ k, f2 = k + 1 := ⟨f2 - 1, by omega⟩
      simp only [solveF]
      cases hfo : findOpenCell b with
      | none => rfl
      | some rc =>
          obtain ⟨row, col⟩ := rc
          obtain ⟨hrr, hcc, hopen⟩ := findOpenCell_some_open hfo
          apply tryLoop_congr (solveF_restore g1) hopen
          intro v
          have hnum : numOpen b = numOpen (setCell b row col (some v)) + 1 :=
            numOpen_setCell v hb hrr hcc hopen
          exact ih (n - 1) (by omega) _ g1 g2 (shaped_setCell _ _ _ hb)
            (by omega) (by omega) (by omega)

/-- Any fuel beyond the number of open cells computes `solve`. -/
theorem solveF_eq_solve {b : Board} {fuel : Nat} (hb : Shaped b)
    (h : numOpen b < fuel) : solveF fuel b = solve b :=
  solveF_congr (numOpen b) b fuel (numOpen b + 1) hb rfl h (by omega)

/-! ### Completeness and lexicographic minimality -/

theorem extends_step {b : Board} {row col : Nat} (v : Option Nat)
    (hopen : cell b row col = none) : Extends b (setCell b row col v) := by
  intro r hr s hs hfill
  have hne : row ≠ r ∨ col ≠ s := by
    by_contra hcon
    push_neg at hcon
    rw [← hcon.1, ← hcon.2] at hfill
    exact hfill hopen
  rw [cell_setCell_ne _ _ _ hne]

theorem before_first_open {b : Board} {row col : Nat}
    (hfo : findOpenCell b = some (row, col)) :
    ∀ j < row * 9 + col, cell b (j / 9) (j % 9) ≠ none := by
  obtain ⟨hr, hc, -, hrowbef, hprev⟩ := findOpenCell_eq_some.mp hfo
  intro j hj
  rcases Nat.lt_or_ge (j / 9) row with h | h
  · exact hprev (j / 9) h (j % 9) (by omega)
  · have hje : j / 9 = row := by omega
    have hcb : j % 9 < col := by omega
    rw [hje]
    exact hrowbef (j % 9) hcb

/-- The digit a valid completion places in an open cell is a valid insert
on the partial board. -/
theorem completion_valid_insert {b cb : Board} {row col vc : Nat}
    (hce : Extends b cb) (hcv : verify cb = some true)
    (hrr : row < 9) (hcc : col < 9)
    (hopen : cell b row col = none) (hvcx : cell cb row col = some vc) :
    valid_insert b row col vc = true := by
  have hcons := verify_consistent hcv
  rw [valid_insert_iff hrr hcc]
  refine ⟨hopen, ?_, ?_, ?_⟩
  · intro c' hc' hcell
    have hne : c' ≠ col := by
      intro h
      rw [h, hopen] at hcell
      exact Option.noConfusion hcell
    have hcb : cell cb row c' = some vc := by
      rw [hce row hrr c' hc' (by rw [hcell]; simp), hcell]
    exact hcons row hrr c' hc' row hrr col hcc (by simp [hne]) (Or.inl rfl)
      (by rw [hcb]; simp) (by rw [hcb, hvcx])
  · intro r' hr' hcell
    have hne : r' ≠ row := by
      intro h
      rw [h, hopen] at hcell
      exact Option.noConfusion hcell
    have hcb : cell cb r' col = some vc := by
      rw [hce r' hr' col hcc (by rw [hcell]; simp), hcell]
    exact hcons r' hr' col hcc row hrr col hcc (by simp [hne])
      (Or.inr (Or.inl rfl)) (by rw [hcb]; simp) (by rw [hcb, hvcx])
  · intro r' hr' c' hc' hdr hdc hcell
    have hne : (r', c') ≠ (row, col) := by
      intro h
      obtain ⟨h1, h2⟩ := Prod.mk.injEq .. ▸ h
      rw [h1, h2, hopen] at hcell
      exact Option.noConfusion hcell
    have hcb : cell cb r' c' = some vc := by
      rw [hce r' hr' c' hc' (by rw [hcell]; simp), hcell]
    exact hcons r' hr' c' hc' row hrr col hcc hne
      (Or.inr (Or.inr ⟨hdr, hdc⟩)) (by rw [hcb]; simp) (by rw [hcb, hvcx])

/-- A valid completion of `b` is a valid completion of `b` with the
completion's own digit placed in an open cell. -/
theorem completion_setCell {b cb : Board} {row col vc : Nat}
    (hb : Shaped b)
    (hvc : ValidCompletion b cb) (hrr : row < 9) (hcc : col < 9)
    (hvcx : cell cb row col = some vc) :
    ValidCompletion (setCell b row col (some vc)) cb := by
  obtain ⟨hcs, hce, hcf, hci, hcv⟩ := hvc
  have hself : cell (setCell b row col (some vc)) row col = some vc :=
    cell_setCell_self _ (by rw [hb.1]; omega) (by rw [hb.2 row hrr]; omega)
  refine ⟨hcs, ?_, hcf, hci, hcv⟩
  intro r hr s hs hfill
  by_cases hpos : row = r ∧ col = s
  · obtain ⟨he1, he2⟩ := hpos
    subst he1
    subst he2
    rw [hself, hvcx]
  · rw [cell_setCell_ne _ _ _ (by tauto)] at hfill
    rw [cell_setCell_ne _ _ _ (by tauto)]
    exact hce r hr s hs hfill

/-- The candidate loop succeeds whenever the remaining candidates contain
the completion's digit for the current cell, and the board it produces is
lexicographically at most the completion. -/
theorem tryLoop_complete {g : Nat} {b cb : Board} {row col vc : Nat}
    (hb : Shaped b)
    (hvc : ValidCompletion b cb)
    (hfo : findOpenCell b = some (row, col))
    (hvcx : cell cb row col = some vc)
    (hIH : ∀ b', Shaped b' → numOpen b' + 1 = numOpen b →
      ∀ cb', ValidCompletion b' cb' →
        (solveF g b').1 = true ∧ lexLe (solveF g b').2 cb') :
    ∀ vs, vc ∈ vs → vs.Pairwise (· < ·) →
      (tryLoop (solveF g) row col b vs).1 = true ∧
      lexLe (tryLoop (solveF g) row col b vs).2 cb
  | [], hmem, _ => absurd hmem (List.not_mem_nil _)
  | val :: rest, hmem, hsort => by
      obtain ⟨hrr, hcc, hopen⟩ := findOpenCell_some_open hfo
      simp only [tryLoop]
      by_cases hval : val = vc
      · subst hval
        have hvivc : valid_insert b row col val = true :=
          completion_valid_insert hvc.2.1 hvc.2.2.2.2 hrr hcc hopen hvcx
        rw [if_pos hvivc]
        have hset := completion_setCell hb hvc hrr hcc hvcx
        have hnum := numOpen_setCell val hb hrr hcc hopen
        have hres := hIH (setCell b row col (some val))
          (shaped_setCell _ _ _ hb) (by omega) cb hset
        cases hr : solveF g (setCell b row col (some val)) with
        | mk ok b2 =>
            rw [hr] at hres
            have hok : ok = true := hres.1
            subst hok
            exact ⟨rfl, hres.2⟩
      · have hvcrest : vc ∈ rest := by
          rcases List.mem_cons.mp hmem with h | h
          · exact absurd h.symm hval
          · exact h
        have hsort2 := (List.pairwise_cons.mp hsort).2
        have hvalvc : val < vc := (List.pairwise_cons.mp hsort).1 vc hvcrest
        by_cases hvi : valid_insert b row col val = true
        · rw [if_pos hvi]
          cases hr : solveF g (setCell b row col (some val)) with
          | mk ok b2 =>
              cases ok with
              | true =>
                  refine ⟨rfl, ?_⟩
                  show lexLe b2 cb
                  have hsucc : (solveF g (setCell b row col (some val))).1
                      = true := by rw [hr]
                  have hx := solveF_success_shaped_extends
                    (shaped_setCell _ _ _ hb) hsucc
                  rw [hr] at hx
                  obtain ⟨hb2s, hb2e⟩ := hx
                  have hsetself :
                      cell (setCell b row col (some val)) row col = some val :=
                    cell_setCell_self _ (by rw [hb.1]; omega)
                      (by rw [hb.2 row hrr]; omega)
                  have hb2cell : cell b2 row col = some val := by
                    rw [hb2e row hrr col hcc (by rw [hsetself]; simp), hsetself]
                  have hbext : Extends b b2 :=
                    extends_trans (extends_step _ hopen) hb2e
                  refine Or.inr ⟨row * 9 + col, by omega, ?_, ?_⟩
                  · intro j hj
                    have hj81 : j < 81 := by omega
                    have hfilled := before_first_open hfo j hj
                    unfold cellIx
                    rw [hbext (j / 9) (by omega) (j % 9) (by omega) hfilled,
                      hvc.2.1 (j / 9) (by omega) (j % 9) (by omega) hfilled]
                  · unfold cellIx
                    have e1 : (row * 9 + col) / 9 = row := by omega
                    have e2 : (row * 9 + col) % 9 = col := by omega
                    rw [e1, e2, hb2cell, hvcx]
                    simp only [optRank]
                    omega
              | false =>
                  have hb2 : b2 = setCell b row col (some val) := by
                    have hx := solveF_restore g (setCell b row col (some val))
                      (by rw [hr])
                    rw [hr] at hx
                    exact hx
                  have hrestored : setCell b2 row col none = b := by
                    rw [hb2]
                    exact setCell_cancel _ hopen
                  have hres :=
                    tryLoop_complete hb hvc hfo hvcx hIH rest hvcrest hsort2
                  constructor
                  · show (tryLoop (solveF g) row col
                      (setCell b2 row col none) rest).1 = true
                    rw [hrestored]
                    exact hres.1
                  · show lexLe (tryLoop (solveF g) row col
                      (setCell b2 row col none) rest).2 cb
                    rw [hrestored]
                    exact hres.2
        · rw [if_neg hvi]
          exact tryLoop_complete hb hvc hfo hvcx hIH rest hvcrest hsort2

/-- Completeness with lexicographic minimality: with enough fuel, a board
admitting a valid completion solves successfully, and the result is
lexicographically at most any valid completion. -/
theorem solveF_complete : ∀ (n : Nat) (b cb : Board) (fuel : Nat),
    numOpen b = n → n < fuel → Shaped b → ValidCompletion b cb →
    (solveF fuel b).1 = true ∧ lexLe (solveF fuel b).2 cb := by
  intro n
  induction n using Nat.strong_induction_on with
  | _ n ih =>
      intro b cb fuel hn hfuel hb hvc
      obtain ⟨g, rfl⟩ : ∃ k, fuel = k + 1 := ⟨fuel - 1, by omega⟩
      simp only [solveF]
      cases hfo : findOpenCell b with
      | none =>
          refine ⟨rfl, Or.inl ?_⟩
          rw [findOpenCell_eq_none] at hfo
          apply boardExt hb hvc.1
          intro r hr c hc
          exact (hvc.2.1 r hr c hc (hfo r hr c hc)).symm
      | some rc =>
          obtain ⟨row, col⟩ := rc
          obtain ⟨hrr, hcc, hopen⟩ := findOpenCell_some_open hfo
          cases hvcx : cell cb row col with
          | none => exact absurd hvcx (hvc.2.2.1 row hrr col hcc)
          | some vc =>
              have hbounds : 1 ≤ vc ∧ vc ≤ 9 := by
                have hok := hvc.2.2.2.1 row hrr col hcc
                rw [hvcx, cellOK_some] at hok
                exact hok
              have hmem : vc ∈ List.range' 1 9 := by
                rw [List.mem_range']
                exact ⟨vc - 1, by omega, by omega⟩
              have hsorted : (List.range' 1 9).Pairwise (· < ·) := by decide
              have hpos : 1 ≤ numOpen b := numOpen_pos hrr hcc hopen
              have hIH : ∀ b', Shaped b' → numOpen b' + 1 = numOpen b →
                  ∀ cb', ValidCompletion b' cb' →
                    (solveF g b').1 = true ∧ lexLe (solveF g b').2 cb' := by
                intro b' hb' hnum cb' hvc2
                exact ih (numOpen b') (by omega) b' cb' g rfl (by omega)
                  hb' hvc2
              exact tryLoop_complete hb hvc hfo hvcx hIH
                (List.range' 1 9) hmem hsorted

/-! ### Characterization of construction (`Sudoku::new`) -/

/-- Did the constructor fail? -/
def isError : Except String Board → Bool
  | .error _ => true
  | .ok _ => false

/-- The triple violates one of the bounds checked by `Sudoku::new`. -/
def badTriple (t : Nat × Nat × Nat) : Prop :=
  9 ≤ t.1 ∨ 9 ≤ t.2.1 ∨ t.2.2 = 0 ∨ 9 < t.2.2

instance : DecidablePred badTriple := fun t => by
  unfold badTriple; infer_instance

/-- The two triples target the same cell. -/
def sameCell (t u : Nat × Nat × Nat) : Prop :=
  t.1 = u.1 ∧ t.2.1 = u.2.1

instance (t : Nat × Nat × Nat) : DecidablePred (sameCell t) := fun u => by
  unfold sameCell; infer_instance

/-- The value assigned to cell `(r, c)` by the first triple of the list
that targets it. -/
def assignOf : List (Nat × Nat × Nat) → Nat → Nat → Option Nat
  | [], _, _ => none
  | (row, col, val) :: rest, r, c =>
      if row = r ∧ col = c then some val else assignOf rest r c

theorem getD_replicate_of {α : Type} (n : Nat) (a d : α) (i : Nat) :
    (List.replicate n a).getD i d = if i < n then a else d := by
  rw [List.getD_eq_getElem?_getD, List.getElem?_replicate]
  by_cases h : i < n <;> simp [h]

theorem cell_emptyBoard (r c : Nat) : cell emptyBoard r c = none := by
  unfold cell emptyBoard
  rw [getD_replicate_of]
  by_cases hr : r < ROWS
  · rw [if_pos hr, getD_replicate_of]
    by_cases hc : c < COLS <;> simp [hc]
  · rw [if_neg hr]
    rfl

theorem newGo_ok_inv : ∀ (l : List (Nat × Nat × Nat)) (b b' : Board),
    newGo l b = .ok b' → Shaped b → InRange b → Shaped b' ∧ InRange b'
  | [], b, b', h, hs, hi => by
      simp only [newGo] at h
      cases h
      exact ⟨hs, hi⟩
  | (row, col, val) :: rest, b, b', h, hs, hi => by
      simp only [newGo] at h
      by_cases hbad : ROWS ≤ row ∨ COLS ≤ col ∨ val = 0 ∨ 9 < val
      · rw [if_pos hbad] at h
        exact absurd h (by simp)
      · rw [if_neg hbad] at h
        by_cases hdup : cell b row col ≠ none
        · rw [if_pos hdup] at h
          exact absurd h (by simp)
        · rw [if_neg hdup] at h
          push_neg at hbad
          have h1 : row < 9 := hbad.1
          have h2 : col < 9 := hbad.2.1
          have h3 : val ≠ 0 := hbad.2.2.1
          have h4 : val ≤ 9 := hbad.2.2.2
          exact newGo_ok_inv rest _ b' h (shaped_setCell _ _ _ hs)
            (inRange_setCell hs h1 h2 hi (by omega) h4)

theorem newGo_ok_cells : ∀ (l : List (Nat × Nat × Nat)) (b b' : Board),
    Shaped b → newGo l b = .ok b' →
    (∀ r < 9, ∀ c < 9,
      cell b' r c = match assignOf l r c with
        | some v => some v
        | none => cell b r c) ∧
    (∀ r < 9, ∀ c < 9, cell b r c ≠ none → assignOf l r c = none)
  | [], b, b', _, h => by
      simp only [newGo] at h
      cases h
      exact ⟨fun r _ c _ => rfl, fun _ _ _ _ _ => rfl⟩
  | (row, col, val) :: rest, b, b', hs, h => by
      simp only [newGo] at h
      by_cases hbad : ROWS ≤ row ∨ COLS ≤ col ∨ val = 0 ∨ 9 < val
      · rw [if_pos hbad] at h
        exact absurd h (by simp)
      · rw [if_neg hbad] at h
        by_cases hdup : cell b row col ≠ none
        · rw [if_pos hdup] at h
          exact absurd h (by simp)
        · rw [if_neg hdup] at h
          push_neg at hbad hdup
          have hr9 : row < 9 := hbad.1
          have hc9 : col < 9 := hbad.2.1
          have hself : cell (setCell b row col (some val)) row col
              = some val :=
            cell_setCell_self _ (by rw [hs.1]; omega) (by rw [hs.2 row hr9]; omega)
          obtain ⟨ih1, ih2⟩ :=
            newGo_ok_cells rest _ b' (shaped_setCell _ _ _ hs) h
          constructor
          · intro r hr c hc
            simp only [assignOf]
            by_cases hpos : row = r ∧ col = c
            · obtain ⟨he1, he2⟩ := hpos
              subst he1
              subst he2
              rw [if_pos ⟨rfl, rfl⟩]
              have hnone : assignOf rest row col = none :=
                ih2 row hr9 col hc9 (by rw [hself]; simp)
              have := ih1 row hr9 col hc9
              rw [hnone] at this
              rw [this, hself]
            · rw [if_neg hpos]
              have hcell : cell (setCell b row col (some val)) r c
                  = cell b r c :=
                cell_setCell_ne _ _ _ (by tauto)
              have := ih1 r hr c hc
              rw [hcell] at this
              exact this
          · intro r hr c hc hfill
            simp only [assignOf]
            by_cases hpos : row = r ∧ col = c
            · obtain ⟨he1, he2⟩ := hpos
              subst he1
              subst he2
              exact absurd hdup hfill
            · rw [if_neg hpos]
              apply ih2 r hr c hc
              rw [cell_setCell_ne _ _ _ (by tauto)]
              exact hfill

theorem newGo_error_iff : ∀ (l : List (Nat × Nat × Nat)) (b : Board),
    Shaped b →
    (isError (newGo l b) = true ↔
      ∃ pre t post, l = pre ++ t :: post ∧
        (badTriple t ∨ cell b t.1 t.2.1 ≠ none ∨ ∃ u ∈ pre, sameCell u t))
  | [], b, _ => by
      simp only [newGo, isError]
      constructor
      · intro h
        exact absurd h (by simp)
      · rintro ⟨pre, t, post, hsplit, -⟩
        exact absurd hsplit (by simp)
  | (row, col, val) :: rest, b, hs => by
      simp only [newGo]
      by_cases hbad : ROWS ≤ row ∨ COLS ≤ col ∨ val = 0 ∨ 9 < val
      · rw [if_pos hbad]
        refine iff_of_true rfl ⟨[], (row, col, val), rest, rfl, Or.inl hbad⟩
      · rw [if_neg hbad]
        by_cases hdup : cell b row col ≠ none
        · rw [if_pos hdup]
          refine iff_of_true rfl
            ⟨[], (row, col, val), rest, rfl, Or.inr (Or.inl hdup)⟩
        · rw [if_neg hdup]
          push_neg at hbad hdup
          have hr9 : row < 9 := hbad.1
          have hc9 : col < 9 := hbad.2.1
          have hself : cell (setCell b row col (some val)) row col
              = some val :=
            cell_setCell_self _ (by rw [hs.1]; omega) (by rw [hs.2 row hr9]; omega)
          rw [newGo_error_iff rest _ (shaped_setCell _ _ _ hs)]
          constructor
          · rintro ⟨pre, t, post, hsplit, hcond⟩
            refine ⟨(row, col, val) :: pre, t, post, by rw [hsplit]; rfl, ?_⟩
            rcases hcond with h | h | h
            · exact Or.inl h
            · by_cases hpos : row = t.1 ∧ col = t.2.1
              · exact Or.inr (Or.inr ⟨(row, col, val),
                  List.mem_cons_self _ _, hpos.1, hpos.2⟩)
              · refine Or.inr (Or.inl ?_)
                rwa [cell_setCell_ne _ _ _ (by tauto)] at h
            · obtain ⟨u, hu, hsame⟩ := h
              exact Or.inr (Or.inr ⟨u, List.mem_cons_of_mem _ hu, hsame⟩)
          · rintro ⟨pre, t, post, hsplit, hcond⟩
            cases pre with
            | nil =>
                simp only [List.nil_append, List.cons.injEq] at hsplit
                obtain ⟨rfl, rfl⟩ := hsplit
                rcases hcond with h | h | h
                · exact absurd h (by
                    unfold badTriple
                    dsimp only
                    push_neg
                    exact ⟨by omega, by omega, hbad.2.2.1, hbad.2.2.2⟩)
                · exact absurd hdup h
                · obtain ⟨u, hu, -⟩ := h
                  exact absurd hu (List.not_mem_nil _)
            | cons hd pre2 =>
                simp only [List.cons_append, List.cons.injEq] at hsplit
                obtain ⟨rfl, hsplit⟩ := hsplit
                refine ⟨pre2, t, post, hsplit, ?_⟩
                rcases hcond with h | h | h
                · exact Or.inl h
                · by_cases hpos : row = t.1 ∧ col = t.2.1
                  · refine Or.inr (Or.inl ?_)
                    rw [← hpos.1, ← hpos.2, hself]
                    simp
                  · refine Or.inr (Or.inl ?_)
                    rwa [cell_setCell_ne _ _ _ (by tauto)]
                · obtain ⟨u, hu, hsame⟩ := h
                  rcases List.mem_cons.mp hu with rfl | hu2
                  · refine Or.inr (Or.inl ?_)
                    obtain ⟨h1, h2⟩ := hsame
                    rw [← h1, ← h2, hself]
                    simp
                  · exact Or.inr (Or.inr ⟨u, hu2, hsame⟩)

theorem shaped_emptyBoard : Shaped emptyBoard := by decide

theorem inRange_emptyBoard : InRange emptyBoard := by decide

theorem newBoard_ok_shaped_inRange {l : List (Nat × Nat × Nat)} {b : Board}
    (h : newBoard l = .ok b) : Shaped b ∧ InRange b :=
  newGo_ok_inv l emptyBoard b h shaped_emptyBoard inRange_emptyBoard

theorem newBoard_ok_cells {l : List (Nat × Nat × Nat)} {b : Board}
    (h : newBoard l = .ok b) :
    ∀ r < 9, ∀ c < 9, cell b r c = assignOf l r c := by
  intro r hr c hc
  have h1 := (newGo_ok_cells l emptyBoard b shaped_emptyBoard h).1 r hr c hc
  rw [cell_emptyBoard] at h1
  rw [h1]
  cases assignOf l r c <;> rfl

theorem newBoard_error_iff (l : List (Nat × Nat × Nat)) :
    isError (newBoard l) = true ↔
      ∃ pre t post, l = pre ++ t :: post ∧
        (badTriple t ∨ ∃ u ∈ pre, sameCell u t) := by
  unfold newBoard
  rw [newGo_error_iff l emptyBoard shaped_emptyBoard]
  constructor
  · rintro ⟨pre, t, post, hsplit, hcond⟩
    refine ⟨pre, t, post, hsplit, ?_⟩
    rcases hcond with h | h | h
    · exact Or.inl h
    · exact absurd (cell_emptyBoard t.1 t.2.1) h
    · exact Or.inr h
  · rintro ⟨pre, t, post, hsplit, hcond⟩
    refine ⟨pre, t, post, hsplit, ?_⟩
    rcases hcond with h | h
    · exact Or.inl h
    · exact Or.inr (Or.inr h)

/-! ### A board with a valid completion is itself in range and consistent -/

theorem completion_inRange_consistent {b cb : Board}
    (hvc : ValidCompletion b cb) : InRange b ∧ Consistent b := by
  obtain ⟨hcs, hce, hcf, hci, hcv⟩ := hvc
  constructor
  · intro r hr c hc
    cases hcell : cell b r c with
    | none => simp [cellOK]
    | some v =>
        have heq := hce r hr c hc (by rw [hcell]; simp)
        have hok := hci r hr c hc
        rw [heq, hcell] at hok
        exact hok
  · have hcons := verify_consistent hcv
    intro r hr c hc r' hr' c' hc' hne hunit hfill
    have he1 := hce r hr c hc hfill
    intro heq
    have hfill2 : cell b r' c' ≠ none := by
      rw [← heq]
      exact hfill
    have he2 := hce r' hr' c' hc' hfill2
    have hcbfill : cell cb r c ≠ none := by
      rw [he1]
      exact hfill
    exact hcons r hr c hc r' hr' c' hc' hne hunit hcbfill
      (by rw [he1, he2, heq])

/-- Backtracking finds a valid completion whenever one exists, and the
result is the lexicographically first valid completion. -/
theorem solve_of_completion {b cb : Board} (hb : Shaped b)
    (hvc : ValidCompletion b cb) :
    (solve b).1 = true ∧ ValidCompletion b (solve b).2 ∧
      lexLe (solve b).2 cb := by
  obtain ⟨hbir, hbcons⟩ := completion_inRange_consistent hvc
  have hcomp := solveF_complete (numOpen b) b cb (numOpen b + 1) rfl
    (by omega) hb hvc
  obtain ⟨hsucc, hlex⟩ := hcomp
  obtain ⟨hs2, he2⟩ := solveF_success_shaped_extends hb hsucc
  refine ⟨hsucc, ⟨hs2, he2, solveF_success_full hsucc,
    solveF_success_inRange hb hbir hsucc,
    solveF_sound hb hbir hbcons hsucc⟩, hlex⟩

/-! ### Concrete boards used in the witnesses and counterexamples -/

/-- A full valid solution grid (the cyclic pattern). -/
def classicB : Board :=
  [[some 1, some 2, some 3, some 4, some 5, some 6, some 7, some 8, some 9],
   [some 4, some 5, some 6, some 7, some 8, some 9, some 1, some 2, some 3],
   [some 7, some 8, some 9, some 1, some 2, some 3, some 4, some 5, some 6],
   [some 2, some 3, some 4, some 5, some 6, some 7, some 8, some 9, some 1],
   [some 5, some 6, some 7, some 8, some 9, some 1, some 2, some 3, some 4],
   [some 8, some 9, some 1, some 2, some 3, some 4, some 5, some 6, some 7],
   [some 3, some 4, some 5, some 6, some 7, some 8, some 9, some 1, some 2],
   [some 6, some 7, some 8, some 9, some 1, some 2, some 3, some 4, some 5],
   [some 9, some 1, some 2, some 3, some 4, some 5, some 6, some 7, some 8]]

/-- The digit of `classicB` at `(r, c)`. -/
def classicVal (r c : Nat) : Nat := (r * 3 + r / 3 + c) % 9 + 1

/-- `classicB` with the top-left cell blanked: a puzzle with a unique
valid completion. -/
def b80 : Board := setCell classicB 0 0 none

/-- The 80 triples describing `b80`. -/
def l80 : List (Nat × Nat × Nat) :=
  ((List.range 81).filter fun i => decide (i ≠ 0)).map
    fun i => (i / 9, i % 9, classicVal (i / 9) (i % 9))

/-- `classicB` with the top-left digit replaced by 0: representable in the
cell type (`Option<u8>`), passes `verify`, yet row 0 has no digit 1. -/
def zeroB : Board := setCell classicB 0 0 (some 0)

/-- The full board of 1s: constructible by `new`, full, not a solution. -/
def onesB : Board := List.replicate 9 (List.replicate 9 (some 1))

/-- Triples placing a 1 in all 81 cells (distinct cells, values in range). -/
def allOnesL : List (Nat × Nat × Nat) :=
  (List.range 81).map fun i => (i / 9, i % 9, 1)

/-- An unsolvable board: row 0 holds 1..8 with `(0,8)` open, and the 9 in
column 8 blocks the only remaining digit. -/
def stuckB : Board :=
  [[some 1, some 2, some 3, some 4, some 5, some 6, some 7, some 8, none],
   [none, none, none, none, none, none, none, none, some 9],
   [none, none, none, none, none, none, none, none, none],
   [none, none, none, none, none, none, none, none, none],
   [none, none, none, none, none, none, none, none, none],
   [none, none, none, none, none, none, none, none, none],
   [none, none, none, none, none, none, none, none, none],
   [none, none, none, none, none, none, none, none, none],
   [none, none, none, none, none, none, none, none, none]]

/-- `classicB` with the top-left cell set to 10 and `(1,0)` blanked:
scanning row 0 indexes `seen[10]` and panics, so `verify` neither returns
true nor false even though the board has an empty cell. -/
def tenB : Board := setCell (setCell classicB 0 0 (some 10)) 1 0 none

/-- The board whose only filled cell is `(4,4) = 5` (spec scenario). -/
def b545 : Board := setCell emptyBoard 4 4 (some 5)

/-- The demo triples from the repository's `create_puzzle` test. -/
def demoL : List (Nat × Nat × Nat) := [(0, 1, 3), (5, 3, 8), (8, 8, 4)]

/-- The board built from `demoL`. -/
def demoB : Board :=
  setCell (setCell (setCell emptyBoard 0 1 (some 3)) 5 3 (some 8)) 8 8 (some 4)

/-- Every row, column and cage holds each digit 1-9 exactly once. -/
def DigitsOnce (b : Board) : Prop :=
  (∀ r < 9, ∀ d < 10, 1 ≤ d → countVal (rowCells b r) d = 1) ∧
  (∀ c < 9, ∀ d < 10, 1 ≤ d → countVal (colCells b c) d = 1) ∧
  (∀ ci < 3, ∀ cj < 3, ∀ d < 10, 1 ≤ d → countVal (cageCells b ci cj) d = 1)

instance : DecidablePred DigitsOnce := fun b => by
  unfold DigitsOnce; infer_instance

/-! ## The claims -/

/-- C1, counterexample to the claim as stated: the all-ones board is
constructible by `new` (all bounds hold, no duplicate cell), `solve`
succeeds on it immediately (no open cell), yet `verify` is false. -/
theorem c1_counterexample :
    newBoard allOnesL = Except.ok onesB ∧
    (solve onesB).1 = true ∧ verify (solve onesB).2 = some false := by
  refine ⟨by rfl, by decide, by decide⟩

/-- C1 (amended): for every board constructible by `new` whose filled
cells are Sudoku-consistent (no digit repeated in a row, column or cage),
if `solve` returns success then `verify` on the resulting board returns
true. -/
theorem c1_theorem (l : List (Nat × Nat × Nat)) (b : Board)
    (hok : newBoard l = Except.ok b) (hcons : Consistent b)
    (hsucc : (solve b).1 = true) : verify (solve b).2 = some true := by
  obtain ⟨hs, hi⟩ := newBoard_ok_shaped_inRange hok
  exact solveF_sound hs hi hcons hsucc

/-- Witness for C1 at the concrete puzzle `b80`. -/
theorem c1_witness : verify (solve b80).2 = some true :=
  c1_theorem l80 b80 (by rfl) (by decide) (by decide)

/-- C2: a failed top-level `solve` performs no net mutation — the grid
after the call is identical, cell for cell, to the grid before it (indeed
equal as a value) — so repeated failed `solve` calls are idempotent. -/
theorem c2_theorem (b : Board) (hfail : (solve b).1 = false) :
    (solve b).2 = b ∧ (∀ r c, cell (solve b).2 r c = cell b r c) ∧
      solve ((solve b).2) = solve b := by
  have h1 := solve_restore hfail
  exact ⟨h1, fun r c => by rw [h1], by rw [h1]⟩

/-- Witness for C2 at the concrete unsolvable board `stuckB`. -/
theorem c2_witness :
    (solve stuckB).2 = stuckB ∧
      cell (solve stuckB).2 0 8 = cell stuckB 0 8 ∧
      solve ((solve stuckB).2) = solve stuckB := by
  have h := c2_theorem stuckB (by decide)
  exact ⟨h.1, h.2.1 0 8, h.2.2⟩

/-- C3: on a board with a unique valid completion, `solve` succeeds,
`verify` holds of the result, and the resulting grid is that unique
completion. -/
theorem c3_theorem (b cb : Board) (hb : Shaped b)
    (hcb : ValidCompletion b cb)
    (huniq : ∀ c', ValidCompletion b c' → c' = cb) :
    (solve b).1 = true ∧ verify (solve b).2 = some true ∧ (solve b).2 = cb := by
  obtain ⟨hsucc, hres, -⟩ := solve_of_completion hb hcb
  exact ⟨hsucc, hres.2.2.2.2, huniq _ hres⟩

/-- Witness for C3: `b80` has the unique valid completion `classicB`. -/
theorem c3_witness :
    (solve b80).1 = true ∧ verify (solve b80).2 = some true ∧
      (solve b80).2 = classicB := by
  apply c3_theorem b80 classicB (by decide) (by decide)
  intro c' hvc
  obtain ⟨hcs, hce, hcf, hci, hcv⟩ := hvc
  have hfact : ∀ r < 9, ∀ c < 9, (r, c) ≠ ((0 : Nat), (0 : Nat)) →
      cell b80 r c = cell classicB r c ∧ cell b80 r c ≠ none := by decide
  have hagree : ∀ r < 9, ∀ c < 9, (r, c) ≠ ((0 : Nat), (0 : Nat)) →
      cell c' r c = cell classicB r c := by
    intro r hr c hc hne
    obtain ⟨h1, h2⟩ := hfact r hr c hc hne
    rw [hce r hr c hc h2, h1]
  have hrow0 : ∀ j < 9, cell classicB 0 j = some (j + 1) := by decide
  cases hv : cell c' 0 0 with
  | none => exact absurd hv (hcf 0 (by omega) 0 (by omega))
  | some v =>
      have hvOK : 1 ≤ v ∧ v ≤ 9 := by
        have hok := hci 0 (by omega) 0 (by omega)
        rw [hv, cellOK_some] at hok
        exact hok
      have hcons := verify_consistent hcv
      have hvne : ∀ k, 2 ≤ k → k ≤ 9 → v ≠ k := by
        intro k hk2 hk9 hvk
        have hcellk : cell c' 0 (k - 1) = some k := by
          rw [hagree 0 (by omega) (k - 1) (by omega)
            (by simp only [ne_eq, Prod.mk.injEq, true_and]; omega)]
          have := hrow0 (k - 1) (by omega)
          rw [this]
          congr 1
          omega
        have hne := hcons 0 (by omega) 0 (by omega) 0 (by omega) (k - 1)
          (by omega)
          (by simp only [ne_eq, Prod.mk.injEq, true_and]; omega)
          (Or.inl rfl) (by rw [hv]; simp)
        rw [hv, hcellk] at hne
        exact hne (by rw [hvk])
      have hv1 : v = 1 := by
        rcases Nat.lt_or_ge v 2 with h | h
        · omega
        · exact absurd rfl (hvne v h hvOK.2)
      apply boardExt hcs (by decide)
      intro r hr c hc
      by_cases hpos : (r, c) = ((0 : Nat), (0 : Nat))
      · obtain ⟨h1, h2⟩ := Prod.mk.injEq .. ▸ hpos
        subst h1
        subst h2
        rw [hv, hv1]
        rfl
      · exact hagree r hr c hc hpos

/-- C4: `new` fails exactly when some triple is out of bounds or targets
the cell of an earlier triple of the same call; on success the board's
cells equal the first assignment of the triples, all other cells empty. -/
theorem c4_theorem (l : List (Nat × Nat × Nat)) :
    (isError (newBoard l) = true ↔
      ∃ pre t post, l = pre ++ t :: post ∧
        (badTriple t ∨ ∃ u ∈ pre, sameCell u t)) ∧
    (∀ b, newBoard l = Except.ok b →
      ∀ r < 9, ∀ c < 9, cell b r c = assignOf l r c) :=
  ⟨newBoard_error_iff l, fun _ h => newBoard_ok_cells h⟩

/-- Witness for C4: the demo triples build their board, and the spec's
rejection example `[(0,0,10)]` fails. -/
theorem c4_witness :
    cell demoB 0 1 = assignOf demoL 0 1 ∧
    isError (newBoard [(0, 0, 10)]) = true := by
  constructor
  · exact (c4_theorem demoL).2 demoB (by rfl) 0 (by omega) 1 (by omega)
  · exact (c4_theorem [(0, 0, 10)]).1.mpr
      ⟨[], (0, 0, 10), [], rfl, Or.inl (by decide)⟩

/-- C5, counterexample to the claim as stated, on both sides.  A grid
holding the value 0 in one cell (representable in `Option<u8>`) passes
`verify` even though its first row does not contain each digit 1-9
exactly once — the `seen` array has an index 0 that the dead range check
`val > 9` does not exclude.  And a grid holding the value 10 panics at
`seen[10]` (the index precedes the range check), so `verify` does not
return false even though the board has an empty cell. -/
theorem c5_counterexample :
    (verify zeroB = some true ∧ ¬ DigitsOnce zeroB) ∧
    (cell tenB 1 0 = none ∧ verify tenB ≠ some false) := by
  refine ⟨⟨by decide, by decide⟩, by decide, by decide⟩

/-- C5 (amended): on boards whose filled cells hold digits 1-9 (the
invariant maintained by `new` and `solve`, cf. C10), `verify` returns true
iff every row, column and cage holds each digit 1-9 exactly once, and an
empty cell anywhere makes `verify` return false; outside that invariant a
cell value of 10 or more makes the scan panic at `seen[val]` instead of
returning.  (`verify` is a pure function of the board in this embedding,
so it cannot modify it.) -/
theorem c5_theorem (b : Board) :
    (InRange b → (verify b = some true ↔ DigitsOnce b)) ∧
    (InRange b → ∀ r < 9, ∀ c < 9, cell b r c = none →
      verify b = some false) := by
  constructor
  · intro hir
    rw [verify_eq_true_iff_units]
    unfold DigitsOnce
    have hrow : ∀ r, r < 9 → (verify_row b r = some true ↔
        ∀ d < 10, 1 ≤ d → countVal (rowCells b r) d = 1) := by
      intro r hr
      have hge : ∀ i < 9, ∀ v, cell b r i = some v → 1 ≤ v := by
        intro i hi v hv
        have hok := hir r hr i hi
        rw [hv, cellOK_some] at hok
        exact hok.1
      calc verify_row b r = some true
          ↔ (rowCells b r).Perm digitsL := unit_scan_iff_perm _ hge
        _ ↔ _ := perm_digitsL_iff_counts (by simp [rowCells])
    have hcol : ∀ c, c < 9 → (verify_col b c = some true ↔
        ∀ d < 10, 1 ≤ d → countVal (colCells b c) d = 1) := by
      intro c hc
      have hge : ∀ i < 9, ∀ v, cell b i c = some v → 1 ≤ v := by
        intro i hi v hv
        have hok := hir i hi c hc
        rw [hv, cellOK_some] at hok
        exact hok.1
      calc verify_col b c = some true
          ↔ (colCells b c).Perm digitsL := unit_scan_iff_perm _ hge
        _ ↔ _ := perm_digitsL_iff_counts (by simp [colCells])
    have hcage : ∀ ci, ci < 3 → ∀ cj, cj < 3 →
        (verify_cage b ci cj = some true ↔
          ∀ d < 10, 1 ≤ d → countVal (cageCells b ci cj) d = 1) := by
      intro ci hci cj hcj
      have hge : ∀ i < 9, ∀ v,
          cell b (ci * 3 + i / 3) (cj * 3 + i % 3) = some v → 1 ≤ v := by
        intro i hi v hv
        have hok := hir (ci * 3 + i / 3) (by omega) (cj * 3 + i % 3)
          (by omega)
        rw [hv, cellOK_some] at hok
        exact hok.1
      calc verify_cage b ci cj = some true
          ↔ (cageCells b ci cj).Perm digitsL := unit_scan_iff_perm _ hge
        _ ↔ _ := perm_digitsL_iff_counts (by simp [cageCells])
    constructor
    · rintro ⟨h1, h2, h3⟩
      exact ⟨fun r hr => (hrow r hr).mp (h1 r hr),
        fun c hc => (hcol c hc).mp (h2 c hc),
        fun ci hci cj hcj => (hcage ci hci cj hcj).mp (h3 ci hci cj hcj)⟩
    · rintro ⟨h1, h2, h3⟩
      exact ⟨fun r hr => (hrow r hr).mpr (h1 r hr),
        fun c hc => (hcol c hc).mpr (h2 c hc),
        fun ci hci cj hcj => (hcage ci hci cj hcj).mpr (h3 ci hci cj hcj)⟩
  · intro hir r hr c hc hnone
    have hnn : verify b ≠ none := by
      apply verify_ne_none_of_le9
      intro r2 hr2 c2 hc2 v hv
      have hok := hir r2 hr2 c2 hc2
      rw [hv, cellOK_some] at hok
      exact hok.2
    cases hverify : verify b with
    | none => exact absurd hverify hnn
    | some x =>
        cases x with
        | false => rfl
        | true => exact absurd hnone (fun h => (verify_full hverify r hr c hc) h)

/-- Witness for C5 at the concrete full solution `classicB`. -/
theorem c5_witness : verify classicB = some true :=
  ((c5_theorem classicB).1 (by decide)).mpr (by decide)

/-- C6: for in-range coordinates and value, `valid_insert` holds iff the
cell is empty and the value is absent from its row, column and cage; and
the spec's concrete scenario on the board with single cell `(4,4) = 5`. -/
theorem c6_theorem :
    (∀ (b : Board) (row col val : Nat), row < 9 → col < 9 →
      1 ≤ val → val ≤ 9 →
      (valid_insert b row col val = true ↔
        cell b row col = none ∧
        (∀ c < 9, cell b row c ≠ some val) ∧
        (∀ r < 9, cell b r col ≠ some val) ∧
        (∀ r' < 9, ∀ c' < 9, r' / 3 = row / 3 → c' / 3 = col / 3 →
          cell b r' c' ≠ some val))) ∧
    valid_row_insert b545 4 5 = false ∧ valid_row_insert b545 4 1 = true := by
  refine ⟨fun b row col val hr hc _ _ => valid_insert_iff hr hc, ?_, ?_⟩
  · decide
  · decide

/-- Witness for C6: inserting 5 at the empty corner of `b545` is valid. -/
theorem c6_witness : valid_insert b545 0 0 5 = true :=
  (c6_theorem.1 b545 0 0 5 (by omega) (by omega) (by omega) (by omega)).mpr
    (by decide)

/-- C7: on a board with no empty cell, `solve` succeeds immediately and
leaves every cell unchanged. -/
theorem c7_theorem (b : Board)
    (hfull : ∀ r < 9, ∀ c < 9, cell b r c ≠ none) :
    solve b = (true, b) := by
  have hfo : findOpenCell b = none := findOpenCell_eq_none.mpr hfull
  have hnum : numOpen b = 0 := by
    unfold numOpen
    rw [List.countP_eq_zero]
    intro i hi
    rw [List.mem_range] at hi
    simp only [decide_eq_true_eq]
    exact hfull (i / 9) (by omega) (i % 9) (by omega)
  unfold solve
  rw [hnum]
  simp only [solveF]
  rw [hfo]

/-- Witness for C7 at the full board `classicB`. -/
theorem c7_witness : solve classicB = (true, classicB) :=
  c7_theorem classicB (by decide)

/-- C8: `find_open_cell_` returns exactly the first empty cell in
row-major order, and for a board admitting valid completions the board
`solve` produces is a valid completion that is lexicographically at most
every valid completion — the lexicographically first one under the
row-major scan and ascending candidate order. -/
theorem c8_theorem :
    (∀ (b : Board) (r c : Nat),
      findOpenCell b = some (r, c) ↔
        r < 9 ∧ c < 9 ∧ cell b r c = none ∧
        (∀ j < c, cell b r j ≠ none) ∧
        (∀ i < r, ∀ j < 9, cell b i j ≠ none)) ∧
    (∀ (b cb : Board), Shaped b → ValidCompletion b cb →
      (solve b).1 = true ∧ ValidCompletion b (solve b).2 ∧
        lexLe (solve b).2 cb) :=
  ⟨fun _ _ _ => findOpenCell_eq_some,
   fun _ _ hb hvc => solve_of_completion hb hvc⟩

/-- Witness for C8 at the concrete puzzle `b80`. -/
theorem c8_witness :
    (solve b80).1 = true ∧ ValidCompletion b80 (solve b80).2 ∧
      lexLe (solve b80).2 classicB :=
  c8_theorem.2 b80 classicB (by decide) (by decide)

/-- C9: `solve` terminates on every board — the recursion depth is bounded
by the number of empty cells, which is at most 81: any fuel beyond
`numOpen` computes the same result. -/
theorem c9_theorem (b : Board) (hb : Shaped b) :
    numOpen b ≤ 81 ∧ ∀ fuel, numOpen b < fuel → solveF fuel b = solve b :=
  ⟨numOpen_le b, fun _ h => solveF_eq_solve hb h⟩

/-- Witness for C9 at `classicB` with fuel 82. -/
theorem c9_witness : solveF 82 classicB = solve classicB :=
  (c9_theorem classicB (by decide)).2 82 (by decide)

/-- C10: boards produced by `new` satisfy the cell invariant (empty or a
digit 1-9), and `solve` preserves it at every recursion depth, after both
successful and failed calls. -/
theorem c10_theorem :
    (∀ (l : List (Nat × Nat × Nat)) (b : Board),
      newBoard l = Except.ok b → InRange b) ∧
    (∀ (b : Board) (fuel : Nat), Shaped b → InRange b →
      InRange (solveF fuel b).2) := by
  constructor
  · intro l b h
    exact (newBoard_ok_shaped_inRange h).2
  · intro b fuel hb hir
    cases hres : (solveF fuel b).1 with
    | true => exact solveF_success_inRange hb hir hres
    | false =>
        rw [solveF_restore fuel b hres]
        exact hir

/-- Witness for C10: the invariant holds of the board `solve` leaves
behind on the concrete puzzle `b80`. -/
theorem c10_witness : InRange (solveF 2 b80).2 :=
  c10_theorem.2 b80 2 (by decide) (by decide)

end Sudoku
